import Mathlib

/-!
Shallow embedding of the QuickScribe-AI media pipeline (TypeScript sources)
and proofs of the specification's testable properties.

JavaScript numbers are modelled as exact rationals (`ℚ`); machine integer
conversions (`DataView.setInt16`, `Int16Array` stores, WebIDL `unsigned long`
coercion) are modelled with explicit truncation and `% 2^w` wrapping.
Strings are modelled as `List Char` where character-level behaviour matters.
-/

namespace QuickScribe

/-! ## JavaScript numeric primitives -/

/-- JavaScript's truncation toward zero (the IntegerPart step of `ToInt16`,
`ToUint32`, …) on an exact rational. -/
def ratTrunc (q : ℚ) : ℤ :=
  if 0 ≤ q then ⌊q⌋ else -⌊-q⌋

/-- `ToInt16`: truncate toward zero, wrap modulo 2^16, reinterpret signed.
This is what `DataView.setInt16` and an `Int16Array` store perform. -/
def toInt16 (q : ℚ) : ℤ :=
  ((ratTrunc q + 32768) % 65536) - 32768

/-! ## 16-bit sample conversion (audioBufferToWav sample loop, part_001
lines 236-242, and audioBufferToMp3's floatTo16BitPCM, lines 256-264):
`const s = Math.max(-1, Math.min(1, x)); s < 0 ? s * 0x8000 : s * 0x7FFF`. -/

/-- The float→int16 sample conversion used inside `audioBufferToWav`. -/
def floatTo16 (x : ℚ) : ℤ :=
  let s := max (-1) (min 1 x)
  toInt16 (if s < 0 then s * 32768 else s * 32767)

/-- `floatTo16BitPCM` from `audioBufferToMp3`: elementwise conversion of a
channel; the per-sample rule is character-for-character the same expression
as the one inside `audioBufferToWav`. -/
def floatTo16BitPCM (input : List ℚ) : List ℤ :=
  input.map floatTo16

/-! ## Peak Reduction Engine
(WaveformTimeline.tsx lines 41-60 and AudioTrimmerTool.tsx lines 46-72; the
two effects contain the identical computation):

    const buckets = 2000;
    const peaks = new Float32Array(buckets * 2);
    const step = Math.ceil(channels.length / buckets);
    for (let i = 0; i < buckets; i++) {
        let min = 1.0; let max = -1.0;
        for (let j = 0; j < step; j++) {
            const idx = i * step + j;
            if (idx < channels.length) {
                const val = channels[idx];
                if (val < min) min = val;
                if (val > max) max = val;
            }
        }
        peaks[i * 2] = min;
        peaks[i * 2 + 1] = max;
    }
-/

/-- `Math.ceil(len / buckets)` for natural `len`, `buckets > 0`. -/
def ceilStep (len buckets : ℕ) : ℕ := (len + buckets - 1) / buckets

/-- Running minimum of bucket `i`: fold of the inner `j` loop, `min`
initialised to `1.0`, indices clipped to the array length. -/
def bucketMin (channels : List ℚ) (step i : ℕ) : ℚ :=
  (List.range step).foldl
    (fun acc j => if i * step + j < channels.length
      then min acc (channels.getD (i * step + j) 0) else acc) 1

/-- Running maximum of bucket `i`, `max` initialised to `-1.0`. -/
def bucketMax (channels : List ℚ) (step i : ℕ) : ℚ :=
  (List.range step).foldl
    (fun acc j => if i * step + j < channels.length
      then max acc (channels.getD (i * step + j) 0) else acc) (-1)

/-- The peaks array: `peaks[2i] = min_i`, `peaks[2i+1] = max_i`, for a
parametric bucket count. -/
def computePeaksWith (buckets : ℕ) (channels : List ℚ) : List ℚ :=
  (List.range buckets).flatMap (fun i =>
    [bucketMin channels (ceilStep channels.length buckets) i,
     bucketMax channels (ceilStep channels.length buckets) i])

/-- The computation as shipped: bucket count fixed at 2000. -/
def computePeaks (channels : List ℚ) : List ℚ := computePeaksWith 2000 channels

/-! ## PCM Container Writer (`audioBufferToWav`, part_001 lines 180-245) -/

/-- A decoded `AudioBuffer`: sample rate plus one sample list per channel.
The Web Audio `AudioBuffer` guarantees every channel has the same length
(its `length` attribute); theorems carry that as a hypothesis. -/
structure AudioBuf where
  sampleRate : ℕ
  data : List (List ℚ)

/-- `numberOfChannels`. -/
def AudioBuf.numChannels (b : AudioBuf) : ℕ := b.data.length

/-- `getChannelData(i)` (an absent channel reads as an empty array; the
sources only call it for channels that exist). -/
def AudioBuf.channel (b : AudioBuf) (i : ℕ) : List ℚ := b.data.getD i []

/-- Frame count: the length of channel 0, the `length` attribute of a
well-formed `AudioBuffer`. -/
def AudioBuf.frames (b : AudioBuf) : ℕ := (b.channel 0).length

/-- The interleaving loop of `audioBufferToWav`:
`result[i*2] = left[i]; result[i*2+1] = right[i]` for `i < left.length`
(channels of an `AudioBuffer` have matching lengths). -/
def interleave (left right : List ℚ) : List ℚ :=
  (left.zip right).flatMap (fun p => [p.1, p.2])

/-- The `result` sample sequence of `audioBufferToWav`: interleaved when
`numChannels === 2`, otherwise channel 0 alone. -/
def wavResult (b : AudioBuf) : List ℚ :=
  if b.numChannels = 2 then interleave (b.channel 0) (b.channel 1)
  else b.channel 0

/-- Little-endian 16-bit unsigned encoding of a (wrapped) value. -/
def u16le (n : ℕ) : List ℕ := [n % 256, n / 256 % 256]

/-- Little-endian 32-bit unsigned encoding (`DataView.setUint32(…, true)`
wraps modulo 2^32). -/
def u32le (n : ℕ) : List ℕ :=
  [n % 256, n / 256 % 256, n / 65536 % 256, n / 16777216 % 256]

/-- `DataView.setInt16(…, true)` of an integer already in int16 range:
two's-complement little-endian bytes. -/
def i16le (z : ℤ) : List ℕ := u16le (z % 65536).toNat

/-- `writeString`: one byte per character (char codes of the ASCII magic
markers). -/
def asciiBytes (s : String) : List ℕ := s.data.map Char.toNat

/-- The byte stream produced by `audioBufferToWav`: the 44-byte header
written at offsets 0..43 in order, then the converted samples from
offset 44. -/
def wavBytes (b : AudioBuf) : List ℕ :=
  let result := wavResult b
  let blockAlign := b.numChannels * 2
  asciiBytes "RIFF" ++
  u32le (36 + result.length * 2) ++
  asciiBytes "WAVE" ++
  asciiBytes "fmt " ++
  u32le 16 ++
  u16le 1 ++
  u16le b.numChannels ++
  u32le b.sampleRate ++
  u32le (b.sampleRate * blockAlign) ++
  u16le blockAlign ++
  u16le 16 ++
  asciiBytes "data" ++
  u32le (result.length * 2) ++
  result.flatMap (fun x => i16le (floatTo16 x))

/-- Read a little-endian `Uint32` back out of a byte list at an offset. -/
def readU32le (bytes : List ℕ) (off : ℕ) : ℕ :=
  bytes.getD off 0 + 256 * bytes.getD (off + 1) 0 +
  65536 * bytes.getD (off + 2) 0 + 16777216 * bytes.getD (off + 3) 0

/-! ## Format Negotiator (part_001: burnSubtitles lines 337-355,
trimVideo lines 497-503, convertVideo lines 612-651) -/

/-- `mimeTypesCandidates` of `burnSubtitles`. -/
def burnCandidates : List String :=
  ["video/mp4",
   "video/mp4;codecs=avc1",
   "video/mp4;codecs=\"avc1.42E01E, mp4a.40.2\"",
   "video/mp4;codecs=\"avc1.4d002a, mp4a.40.2\"",
   "video/mp4;codecs=\"avc1.64001f, mp4a.40.2\"",
   "video/mp4;codecs=h264",
   "video/webm;codecs=h264",
   "video/webm;codecs=vp9",
   "video/webm"]

/-- `mimeTypesCandidates` of `trimVideo`. -/
def trimCandidates : List String :=
  ["video/mp4;codecs=avc1", "video/mp4", "video/webm;codecs=h264",
   "video/webm"]

/-- `audioCandidates` of `convertVideo` (audio-only targets). -/
def convertAudioCandidates : List String :=
  ["audio/webm;codecs=opus", "audio/webm", "audio/mp4"]

/-- `mp4Candidates` of `convertVideo`. -/
def convertMp4Candidates : List String :=
  ["video/mp4;codecs=avc1", "video/mp4;codecs=\"avc1.42E01E, mp4a.40.2\"",
   "video/mp4"]

/-- `webmCandidates` of `convertVideo`. -/
def convertWebmCandidates : List String :=
  ["video/webm;codecs=vp9", "video/webm;codecs=h264", "video/webm"]

/-- `mp4Compatible` extensions of `convertVideo`. -/
def mp4Compatible : List String := ["mp4", "m4v", "mov", "qt", "3gp", "moov"]

/-- `burnSubtitles` negotiation:
`candidates.find(isTypeSupported) || ''`, then reject when empty. -/
def burnSelect (supp : String → Bool) : Except String String :=
  match burnCandidates.find? supp with
  | some m => .ok m
  | none => .error "No supported video mime type found for recording."

/-- `trimVideo` negotiation:
`candidates.find(isTypeSupported) || 'video/webm'` — no rejection path. -/
def trimSelect (supp : String → Bool) : String :=
  (trimCandidates.find? supp).getD "video/webm"

/-- `convertVideo` negotiation: audio-only targets use the audio ladder;
mp4-family targets try the mp4 ladder first; anything still unselected
falls through to the webm ladder; an empty selection rejects with a
message naming the attempted target. -/
def convertSelect (supp : String → Bool) (targetFormat : String) :
    Except String String :=
  let isAudioOnly := ["weba", "mpa"].contains targetFormat.toLower
  let selected : Option String :=
    if isAudioOnly then convertAudioCandidates.find? supp
    else
      let s1 := if mp4Compatible.contains targetFormat
        then convertMp4Candidates.find? supp else none
      match s1 with
      | some m => some m
      | none => convertWebmCandidates.find? supp
  match selected with
  | some m => .ok m
  | none => .error ("Your browser cannot encode to a format compatible with "
      ++ targetFormat.toUpper ++ ". Try using Chrome or Edge.")

/-! ## Render–Capture Synchronization Loop: termination behaviour
(part_001: burnSubtitles lines 382-391, trimVideo lines 540-546,
convertVideo lines 675-678) -/

/-- Observable actions performed by the end-of-stream handlers, in program
order. `setTimeout(f, d)` is modelled as `delayMs d` followed by `f`'s
actions. -/
inductive EndAction where
  | emitProgress (p : ℚ)
  | delayMs (n : ℕ)
  | pauseVideo
  | stopRecorder
  deriving DecidableEq, Repr

/-- `burnSubtitles`'s `video.onended` handler: `onProgress(100)`, then a
1500 ms `setTimeout` whose callback stops the recorder if it is still
active. -/
def burnOnEnded (recorderActive : Bool) : List EndAction :=
  [.emitProgress 100, .delayMs 1500] ++
  (if recorderActive then [.stopRecorder] else [])

/-- `trimVideo`'s end-boundary branch of `renderFrame`
(`video.currentTime >= endTime`): pause, stop, `onProgress(100)`. -/
def trimEndReached : List EndAction :=
  [.pauseVideo, .stopRecorder, .emitProgress 100]

/-- `convertVideo`'s `video.onended` handler: `recorder.stop()` then
`onProgress(100)`. -/
def convertOnEnded : List EndAction :=
  [.stopRecorder, .emitProgress 100]

/-! ## Render loop progress emission
(part_001 lines 414-419, 548-551, 687-690) -/

/-- `burnSubtitles` / `convertVideo` per-frame progress:
`Math.min((currentTime / duration) * 100, 99)`. -/
def burnProgress (currentTime duration : ℚ) : ℚ :=
  min (currentTime / duration * 100) 99

/-- `trimVideo` per-frame progress:
`Math.min(((currentTime - startTime) / (endTime - startTime)) * 100, 99)`. -/
def trimProgress (currentTime startTime endTime : ℚ) : ℚ :=
  min ((currentTime - startTime) / (endTime - startTime) * 100) 99

/-! ## Subtitle data model and active-cue lookup
(types.ts; part_001 lines 404-412) -/

/-- A caption cue. -/
structure Subtitle where
  id : ℕ
  startTime : ℚ
  endTime : ℚ
  text : List Char
  deriving DecidableEq, Repr

/-- `subtitles.find(s => t >= s.startTime && t <= s.endTime)`: first cue in
list order whose closed interval contains `t`. -/
def activeSubtitle (subs : List Subtitle) (t : ℚ) : Option Subtitle :=
  subs.find? (fun s => decide (s.startTime ≤ t) && decide (t ≤ s.endTime))

/-! ## Offline Mixing Engine (`AudioJoinerTool.handleMerge`,
part_002 lines 580-632) -/

/-- `tracks.reduce((acc, t) => acc + t.duration, 0)`. -/
def mergeTotalDuration (durations : List ℚ) : ℚ :=
  durations.foldl (· + ·) 0

/-- The canonical sample rate the merge forces. -/
def mergeSampleRate : ℕ := 44100

/-- The channel count the merge forces. -/
def mergeChannels : ℕ := 2

/-- The `length` argument the code passes to `new OfflineAudioContext`:
`sampleRate * totalDuration`, an exact rational before host coercion. -/
def mergeLengthArg (durations : List ℚ) : ℚ :=
  (mergeSampleRate : ℚ) * mergeTotalDuration durations

/-- The frame count the context is actually constructed with: WebIDL
`unsigned long` coercion of the (possibly fractional) argument — truncate
toward zero, wrap modulo 2^32. -/
def mergeLengthFrames (durations : List ℚ) : ℕ :=
  (ratTrunc (mergeLengthArg durations) % (2 ^ 32 : ℤ)).toNat

/-- The `source.start(currentTime)` offsets: `currentTime` starts at 0 and
each track adds its duration after scheduling. -/
def schedOffsets (t : ℚ) : List ℚ → List ℚ
  | [] => []
  | d :: rest => t :: schedOffsets (t + d) rest

/-- The merge schedule as executed: offsets starting from `currentTime = 0`. -/
def mergeOffsets (durations : List ℚ) : List ℚ := schedOffsets 0 durations

/-! ## Generic lemmas about the folds and list shapes used above -/

section FoldLemmas

variable {p : ℕ → Prop} [DecidablePred p] {v : ℕ → ℚ}

lemma foldl_min_le_acc (l : List ℕ) :
    ∀ acc : ℚ, l.foldl (fun a j => if p j then min a (v j) else a) acc ≤ acc := by
  induction l with
  | nil => intro acc; simp
  | cons x xs ih =>
    intro acc
    simp only [List.foldl_cons]
    by_cases hx : p x
    · simp only [if_pos hx]
      exact le_trans (ih _) (min_le_left _ _)
    · simp only [if_neg hx]; exact ih acc

lemma foldl_min_le_elem (l : List ℕ) :
    ∀ acc : ℚ, ∀ j ∈ l, p j →
      l.foldl (fun a j => if p j then min a (v j) else a) acc ≤ v j := by
  induction l with
  | nil => intro _ j hj; simp at hj
  | cons x xs ih =>
    intro acc j hj hpj
    simp only [List.foldl_cons]
    rcases List.mem_cons.mp hj with h | h
    · subst h
      simp only [if_pos hpj]
      exact le_trans (foldl_min_le_acc xs _) (min_le_right _ _)
    · by_cases hx : p x
      · simp only [if_pos hx]; exact ih _ j h hpj
      · simp only [if_neg hx]; exact ih _ j h hpj

lemma le_foldl_min (l : List ℕ) {c : ℚ} (hv : ∀ j, p j → c ≤ v j) :
    ∀ acc : ℚ, c ≤ acc →
      c ≤ l.foldl (fun a j => if p j then min a (v j) else a) acc := by
  induction l with
  | nil => intro acc hacc; simpa using hacc
  | cons x xs ih =>
    intro acc hacc
    simp only [List.foldl_cons]
    by_cases hx : p x
    · simp only [if_pos hx]; exact ih _ (le_min hacc (hv x hx))
    · simp only [if_neg hx]; exact ih _ hacc

lemma acc_le_foldl_max (l : List ℕ) :
    ∀ acc : ℚ, acc ≤ l.foldl (fun a j => if p j then max a (v j) else a) acc := by
  induction l with
  | nil => intro acc; simp
  | cons x xs ih =>
    intro acc
    simp only [List.foldl_cons]
    by_cases hx : p x
    · simp only [if_pos hx]
      exact le_trans (le_max_left _ _) (ih _)
    · simp only [if_neg hx]; exact ih acc

lemma elem_le_foldl_max (l : List ℕ) :
    ∀ acc : ℚ, ∀ j ∈ l, p j →
      v j ≤ l.foldl (fun a j => if p j then max a (v j) else a) acc := by
  induction l with
  | nil => intro _ j hj; simp at hj
  | cons x xs ih =>
    intro acc j hj hpj
    simp only [List.foldl_cons]
    rcases List.mem_cons.mp hj with h | h
    · subst h
      simp only [if_pos hpj]
      exact le_trans (le_max_right _ _) (acc_le_foldl_max xs _)
    · by_cases hx : p x
      · simp only [if_pos hx]; exact ih _ j h hpj
      · simp only [if_neg hx]; exact ih _ j h hpj

lemma foldl_max_le (l : List ℕ) {c : ℚ} (hv : ∀ j, p j → v j ≤ c) :
    ∀ acc : ℚ, acc ≤ c →
      l.foldl (fun a j => if p j then max a (v j) else a) acc ≤ c := by
  induction l with
  | nil => intro acc hacc; simpa using hacc
  | cons x xs ih =>
    intro acc hacc
    simp only [List.foldl_cons]
    by_cases hx : p x
    · simp only [if_pos hx]; exact ih _ (max_le hacc (hv x hx))
    · simp only [if_neg hx]; exact ih _ hacc

lemma foldl_if_none {f : ℚ → ℕ → ℚ} (l : List ℕ) (hnone : ∀ j ∈ l, ¬ p j) :
    ∀ acc : ℚ, l.foldl (fun a j => if p j then f a j else a) acc = acc := by
  induction l with
  | nil => intro acc; simp
  | cons x xs ih =>
    intro acc
    simp only [List.foldl_cons, if_neg (hnone x (List.mem_cons_self x xs))]
    exact ih (fun j hj => hnone j (List.mem_cons_of_mem x hj)) acc

end FoldLemmas

lemma flatMap_pair_length (f g : ℕ → ℚ) (l : List ℕ) :
    (l.flatMap fun i => [f i, g i]).length = 2 * l.length := by
  induction l with
  | nil => simp
  | cons x xs ih => simp [List.flatMap_cons, ih]; ring

lemma flatMap_pair_getD (f g : ℕ → ℚ) :
    ∀ (l : List ℕ) (k : ℕ), k < l.length →
      ((l.flatMap fun i => [f i, g i]).getD (2 * k) 0 = f (l.getD k 0) ∧
       (l.flatMap fun i => [f i, g i]).getD (2 * k + 1) 0 = g (l.getD k 0)) := by
  intro l
  induction l with
  | nil => intro k hk; simp at hk
  | cons x xs ih =>
    intro k hk
    cases k with
    | zero => simp [List.flatMap_cons]
    | succ k' =>
      have hk' : k' < xs.length := by simpa using Nat.lt_of_succ_lt_succ hk
      have h2 : 2 * (k' + 1) = (2 * k' + 1) + 1 := by ring
      constructor
      · rw [h2]
        simpa [List.flatMap_cons] using (ih k' hk').1
      · rw [h2]
        simpa [List.flatMap_cons] using (ih k' hk').2

/-- `List.find?` returns the first element satisfying the predicate: the
list splits into an unsatisfying prefix, the found element, and a tail. -/
lemma find?_first {α : Type} (P : α → Bool) :
    ∀ (l : List α) (a : α), l.find? P = some a →
      ∃ pre post, l = pre ++ a :: post ∧ P a = true ∧ ∀ c ∈ pre, P c = false := by
  intro l
  induction l with
  | nil => intro a h; simp at h
  | cons x xs ih =>
    intro a h
    by_cases hx : P x
    · rw [List.find?_cons_of_pos _ hx] at h
      cases h
      exact ⟨[], xs, rfl, hx, fun c hc => by simp at hc⟩
    · rw [List.find?_cons_of_neg _ (by simpa using hx)] at h
      obtain ⟨pre, post, heq, hPa, hpre⟩ := ih a h
      refine ⟨x :: pre, post, by simp [heq], hPa, ?_⟩
      intro c hc
      rcases List.mem_cons.mp hc with h | h
      · subst h; simpa using hx
      · exact hpre c h

/-! ## C3: the 16-bit sample conversion -/

lemma toInt16_eq_of_range {t : ℤ} (h1 : -32768 ≤ t) (h2 : t ≤ 32767) :
    ((t + 32768) % 65536) - 32768 = t := by
  have : (t + 32768) % 65536 = t + 32768 :=
    Int.emod_eq_of_lt (by omega) (by omega)
  omega

lemma ratTrunc_nonneg_eq {q : ℚ} (h : 0 ≤ q) : ratTrunc q = ⌊q⌋ := by
  simp [ratTrunc, h]

lemma ratTrunc_neg_eq {q : ℚ} (h : ¬ 0 ≤ q) : ratTrunc q = ⌈q⌉ := by
  rw [ratTrunc, if_neg h, ← Int.ceil_neg, neg_neg]

lemma ratTrunc_intCast (z : ℤ) : ratTrunc (z : ℚ) = z := by
  by_cases h : (0 : ℚ) ≤ (z : ℚ)
  · rw [ratTrunc_nonneg_eq h, Int.floor_intCast]
  · rw [ratTrunc_neg_eq h, Int.ceil_intCast]

/-- C3: the 16-bit conversion shared by the PCM container writer and the
lossy-encoder driver clamps to [-1, 1] and scales negatives by 32768 and
non-negatives by 32767; -1, 0 and 1 map exactly to -32768, 0 and 32767;
every input lands in the int16 range (no wrap occurs); and the per-sample
rule of the MP3 path is the same function applied pointwise. -/
theorem c3_float_to_int16_conversion :
    floatTo16 (-1) = -32768 ∧ floatTo16 0 = 0 ∧ floatTo16 1 = 32767 ∧
    (∀ x : ℚ, -32768 ≤ floatTo16 x ∧ floatTo16 x ≤ 32767) ∧
    (∀ x : ℚ, -1 ≤ x → x ≤ 1 →
      floatTo16 x = ratTrunc (if x < 0 then x * 32768 else x * 32767)) ∧
    (∀ ch : List ℚ, floatTo16BitPCM ch = ch.map floatTo16) := by
  have hbounds : ∀ x : ℚ,
      -32768 ≤ ratTrunc (if max (-1) (min 1 x) < 0
        then max (-1) (min 1 x) * 32768 else max (-1) (min 1 x) * 32767) ∧
      ratTrunc (if max (-1) (min 1 x) < 0
        then max (-1) (min 1 x) * 32768 else max (-1) (min 1 x) * 32767) ≤ 32767 := by
    intro x
    set s : ℚ := max (-1) (min 1 x) with hs
    have hs1 : -1 ≤ s := le_max_left _ _
    have hs2 : s ≤ 1 := max_le (by norm_num) (min_le_left _ _)
    by_cases hneg : s < 0
    · rw [if_pos hneg]
      have hq1 : (-32768 : ℚ) ≤ s * 32768 := by nlinarith
      have hq2 : s * 32768 ≤ 0 := by nlinarith
      have ht : ratTrunc (s * 32768) = ⌈s * 32768⌉ := by
        rcases le_or_lt 0 (s * 32768) with h | h
        · have : s * 32768 = 0 := le_antisymm hq2 h
          rw [ratTrunc_nonneg_eq h, this]; simp
        · exact ratTrunc_neg_eq (not_le.mpr h)
      rw [ht]
      have hcast : ((-32768 : ℤ) : ℚ) = -32768 := by norm_num
      constructor
      · calc (-32768 : ℤ) = ⌈((-32768 : ℤ) : ℚ)⌉ := (Int.ceil_intCast _).symm
          _ ≤ ⌈s * 32768⌉ := Int.ceil_le_ceil (by rw [hcast]; exact hq1)
      · calc ⌈s * 32768⌉ ≤ ⌈(0 : ℚ)⌉ := Int.ceil_le_ceil hq2
          _ ≤ 32767 := by rw [Int.ceil_zero]; norm_num
    · rw [if_neg hneg]
      push_neg at hneg
      have hq1 : (0 : ℚ) ≤ s * 32767 := by nlinarith
      have hq2 : s * 32767 ≤ 32767 := by nlinarith
      have hcast : ((32767 : ℤ) : ℚ) = 32767 := by norm_num
      rw [ratTrunc_nonneg_eq hq1]
      constructor
      · calc (-32768 : ℤ) ≤ ⌊(0 : ℚ)⌋ := by rw [Int.floor_zero]; norm_num
          _ ≤ ⌊s * 32767⌋ := Int.floor_le_floor hq1
      · calc ⌊s * 32767⌋ ≤ ⌊((32767 : ℤ) : ℚ)⌋ :=
            Int.floor_le_floor (by rw [hcast]; exact hq2)
          _ = 32767 := Int.floor_intCast _
  have heq : ∀ x : ℚ, floatTo16 x = ratTrunc (if max (-1) (min 1 x) < 0
      then max (-1) (min 1 x) * 32768 else max (-1) (min 1 x) * 32767) := by
    intro x
    have h := hbounds x
    unfold floatTo16 toInt16
    exact toInt16_eq_of_range h.1 h.2
  have hgen : ∀ x : ℚ, -1 ≤ x → x ≤ 1 →
      floatTo16 x = ratTrunc (if x < 0 then x * 32768 else x * 32767) := by
    intro x h1 h2
    have hclamp : max (-1) (min 1 x) = x := by
      rw [min_eq_right h2, max_eq_right h1]
    rw [heq x, hclamp]
  refine ⟨?_, ?_, ?_, fun x => by rw [heq x]; exact hbounds x, hgen, fun ch => rfl⟩
  · rw [hgen (-1) (by norm_num) (by norm_num), if_pos (by norm_num : (-1 : ℚ) < 0),
      show ((-1 : ℚ)) * 32768 = ((-32768 : ℤ) : ℚ) by norm_num, ratTrunc_intCast]
  · rw [hgen 0 (by norm_num) (by norm_num), if_neg (by norm_num : ¬ (0 : ℚ) < 0),
      show ((0 : ℚ)) * 32767 = ((0 : ℤ) : ℚ) by norm_num, ratTrunc_intCast]
  · rw [hgen 1 (by norm_num) (by norm_num), if_neg (by norm_num : ¬ (1 : ℚ) < 0),
      show ((1 : ℚ)) * 32767 = ((32767 : ℤ) : ℚ) by norm_num, ratTrunc_intCast]

/-- Witness for c3_float_to_int16_conversion: the clamp-free
characterisation applied at the in-range input 1/2. -/
theorem c3_float_to_int16_conversion_witness :
    floatTo16 (1/2) = ratTrunc (if (1/2 : ℚ) < 0
      then (1/2 : ℚ) * 32768 else (1/2 : ℚ) * 32767) :=
  c3_float_to_int16_conversion.2.2.2.2.1 (1/2) (by norm_num) (by norm_num)

/-! ## C1: the Peak Reduction Engine -/

lemma range_getD {b i : ℕ} (h : i < b) : (List.range b).getD i 0 = i := by
  rw [List.getD_eq_getElem _ _ (by simpa using h)]
  simp

lemma ceilStep_pos {len b : ℕ} (hb : 0 < b) (hlen : 0 < len) :
    0 < ceilStep len b := by
  rw [ceilStep]
  have : b ≤ len + b - 1 := by omega
  exact Nat.lt_of_lt_of_le Nat.zero_lt_one ((Nat.one_le_div_iff hb).mpr this)

lemma getD_in_range {ch : List ℚ} {idx : ℕ} (h : idx < ch.length) :
    ch.getD idx 0 ∈ ch := by
  rw [List.getD_eq_getElem _ _ h]
  exact List.getElem_mem h

lemma bucketMin_le_one (ch : List ℚ) (step i : ℕ) :
    bucketMin ch step i ≤ 1 :=
  foldl_min_le_acc _ 1

lemma neg_one_le_bucketMax (ch : List ℚ) (step i : ℕ) :
    -1 ≤ bucketMax ch step i :=
  acc_le_foldl_max _ (-1)

lemma neg_one_le_bucketMin (ch : List ℚ) (step i : ℕ)
    (hin : ∀ x ∈ ch, -1 ≤ x) : -1 ≤ bucketMin ch step i :=
  le_foldl_min _ (fun j hj => hin _ (getD_in_range hj)) 1 (by norm_num)

lemma bucketMax_le_one (ch : List ℚ) (step i : ℕ)
    (hin : ∀ x ∈ ch, x ≤ 1) : bucketMax ch step i ≤ 1 :=
  foldl_max_le _ (fun j hj => hin _ (getD_in_range hj)) (-1) (by norm_num)

lemma bucketMin_le_bucketMax (ch : List ℚ) (step i : ℕ)
    (hstep : 0 < step) (hne : i * step < ch.length) :
    bucketMin ch step i ≤ bucketMax ch step i := by
  have h0 : (0 : ℕ) ∈ List.range step := List.mem_range.mpr hstep
  have hp : i * step + 0 < ch.length := by simpa using hne
  calc bucketMin ch step i ≤ ch.getD (i * step + 0) 0 :=
        foldl_min_le_elem _ 1 0 h0 hp
    _ ≤ bucketMax ch step i := elem_le_foldl_max _ (-1) 0 h0 hp

lemma bucketMin_empty (ch : List ℚ) (step i : ℕ)
    (hempty : ch.length ≤ i * step) : bucketMin ch step i = 1 :=
  foldl_if_none _ (fun j _ => by omega) 1

lemma bucketMax_empty (ch : List ℚ) (step i : ℕ)
    (hempty : ch.length ≤ i * step) : bucketMax ch step i = -1 :=
  foldl_if_none _ (fun j _ => by omega) (-1)

lemma computePeaksWith_getD {b : ℕ} (ch : List ℚ) {i : ℕ} (hi : i < b) :
    (computePeaksWith b ch).getD (2 * i) 0
        = bucketMin ch (ceilStep ch.length b) i ∧
    (computePeaksWith b ch).getD (2 * i + 1) 0
        = bucketMax ch (ceilStep ch.length b) i := by
  have h := flatMap_pair_getD
    (fun i => bucketMin ch (ceilStep ch.length b) i)
    (fun i => bucketMax ch (ceilStep ch.length b) i)
    (List.range b) i (by simpa using hi)
  rw [range_getD hi] at h
  exact h

/-- C1 counterexample: on the empty sample array every bucket is empty, and
the code stores the loop's initial values — min `1.0` and max `-1.0` — not
`0`; in particular `min ≤ max` fails for an empty bucket. -/
theorem c1_peak_envelope_counterexample :
    (computePeaks []).getD 0 0 = 1 ∧ (computePeaks []).getD 1 0 = -1 ∧
    ¬ ((computePeaks []).getD 0 0 ≤ (computePeaks []).getD 1 0) := by
  have h := @computePeaksWith_getD 2000 ([] : List ℚ) 0 (by norm_num)
  rw [bucketMin_empty _ _ _ (by simp), bucketMax_empty _ _ _ (by simp)] at h
  have h0 : (computePeaks []).getD 0 0 = 1 := by
    have := h.1
    simpa [computePeaks] using this
  have h1 : (computePeaks []).getD 1 0 = -1 := by
    have := h.2
    simpa [computePeaks] using this
  refine ⟨h0, h1, ?_⟩
  rw [h0, h1]
  norm_num

/-- C1 amended: for every sample array with values in [-1, 1], the envelope
(2000 buckets as shipped) has length exactly 2 × 2000; every stored min and
max lies in [-1, 1]; for every non-empty bucket min ≤ max; and every empty
bucket stores min = 1.0 and max = -1.0 (the loop's initial values), not 0. -/
theorem c1_peak_envelope_amended (ch : List ℚ)
    (hin : ∀ x ∈ ch, -1 ≤ x ∧ x ≤ 1) :
    (computePeaks ch).length = 2 * 2000 ∧
    ∀ i, i < 2000 →
      (-1 ≤ (computePeaks ch).getD (2 * i) 0 ∧
        (computePeaks ch).getD (2 * i) 0 ≤ 1 ∧
        -1 ≤ (computePeaks ch).getD (2 * i + 1) 0 ∧
        (computePeaks ch).getD (2 * i + 1) 0 ≤ 1) ∧
      (i * ceilStep ch.length 2000 < ch.length →
        (computePeaks ch).getD (2 * i) 0 ≤ (computePeaks ch).getD (2 * i + 1) 0) ∧
      (ch.length ≤ i * ceilStep ch.length 2000 →
        (computePeaks ch).getD (2 * i) 0 = 1 ∧
        (computePeaks ch).getD (2 * i + 1) 0 = -1) := by
  constructor
  · rw [computePeaks, computePeaksWith, flatMap_pair_length]
    simp
  · intro i hi
    have h := @computePeaksWith_getD 2000 ch i hi
    rw [show computePeaks ch = computePeaksWith 2000 ch from rfl, h.1, h.2]
    refine ⟨⟨neg_one_le_bucketMin _ _ _ (fun x hx => (hin x hx).1),
        bucketMin_le_one _ _ _, neg_one_le_bucketMax _ _ _,
        bucketMax_le_one _ _ _ (fun x hx => (hin x hx).2)⟩, ?_, ?_⟩
    · intro hne
      have hlen : 0 < ch.length := by
        rcases Nat.eq_zero_or_pos ch.length with h0 | h0
        · omega
        · exact h0
      exact bucketMin_le_bucketMax _ _ _
        (ceilStep_pos (by norm_num) hlen) hne
    · intro hempty
      exact ⟨bucketMin_empty _ _ _ hempty, bucketMax_empty _ _ _ hempty⟩

/-- Witness for c1_peak_envelope_amended: the in-range hypothesis holds for
the concrete three-sample input. -/
theorem c1_peak_envelope_amended_witness :
    (computePeaks [1/2, -1/4, 3/4]).length = 2 * 2000 :=
  (c1_peak_envelope_amended [1/2, -1/4, 3/4] (by
    intro x hx
    simp only [List.mem_cons, List.not_mem_nil, or_false] at hx
    rcases hx with h | h | h <;> subst h <;> norm_num)).1

/-! ## C2: the PCM Container Writer -/

lemma length_u16le (n : ℕ) : (u16le n).length = 2 := rfl

lemma length_u32le (n : ℕ) : (u32le n).length = 4 := rfl

lemma length_i16le (z : ℤ) : (i16le z).length = 2 := rfl

lemma interleave_length_min (l r : List ℚ) :
    (interleave l r).length = 2 * min l.length r.length := by
  rw [interleave]
  induction l generalizing r with
  | nil => simp
  | cons x xs ih =>
    cases r with
    | nil => simp
    | cons y ys =>
      have hx := ih ys
      simp only [List.zip_cons_cons, List.flatMap_cons, List.length_cons,
        List.length_append, List.length_nil] at *
      omega

lemma interleave_length {l r : List ℚ} (h : l.length = r.length) :
    (interleave l r).length = l.length + r.length := by
  rw [interleave_length_min, ← h]
  omega

lemma wavResult_length (b : AudioBuf)
    (hch : ∀ ch ∈ b.data, ch.length = b.frames) (hpos : 0 < b.numChannels)
    (hle : b.numChannels ≤ 2) :
    (wavResult b).length = b.frames * min b.numChannels 2 := by
  rw [wavResult]
  by_cases h2 : b.numChannels = 2
  · have h2' : b.data.length = 2 := h2
    rw [if_pos h2, h2]
    have hc0 : b.channel 0 ∈ b.data := by
      rw [AudioBuf.channel, List.getD_eq_getElem _ _ (by omega)]
      exact List.getElem_mem _
    have hc1 : b.channel 1 ∈ b.data := by
      rw [AudioBuf.channel, List.getD_eq_getElem _ _ (by omega)]
      exact List.getElem_mem _
    rw [interleave_length (by rw [hch _ hc0, hch _ hc1]),
      hch _ hc0, hch _ hc1, min_self]
    omega
  · rw [if_neg h2]
    have h1 : b.numChannels = 1 := by omega
    rw [show (b.channel 0).length = b.frames from rfl, h1]
    simp

lemma wavBytes_length (b : AudioBuf) :
    (wavBytes b).length = 44 + (wavResult b).length * 2 := by
  have hsum : ∀ l : List ℚ, (l.map (fun _ => 2)).sum = l.length * 2 := by
    intro l
    induction l with
    | nil => simp
    | cons x xs ih => simp [ih]; ring
  have hR : (asciiBytes "RIFF").length = 4 := rfl
  have hW : (asciiBytes "WAVE").length = 4 := rfl
  have hF : (asciiBytes "fmt ").length = 4 := rfl
  have hD : (asciiBytes "data").length = 4 := rfl
  rw [wavBytes]
  simp only [List.length_append, List.length_flatMap, Function.comp_def,
    length_i16le, length_u16le, length_u32le, hsum, hR, hW, hF, hD]

lemma getD_append_exact {α : Type} [Inhabited α] (a rest : List α) (i : ℕ)
    (d : α) : (a ++ rest).getD (a.length + i) d = rest.getD i d := by
  rcases Nat.lt_or_ge i rest.length with h | h
  · rw [List.getD_eq_getElem _ _ (by simp; omega),
      List.getD_eq_getElem _ _ h]
    rw [List.getElem_append_right (by omega)]
    congr 1
    omega
  · rw [List.getD_eq_default _ _ (by simp; omega),
      List.getD_eq_default _ _ h]

lemma u32le_readback (n : ℕ) (rest : List ℕ) :
    readU32le (u32le n ++ rest) 0 = n % 2 ^ 32 := by
  have h0 : (u32le n ++ rest).getD 0 0 = n % 256 := rfl
  have h1 : (u32le n ++ rest).getD 1 0 = n / 256 % 256 := rfl
  have h2 : (u32le n ++ rest).getD 2 0 = n / 65536 % 256 := rfl
  have h3 : (u32le n ++ rest).getD 3 0 = n / 16777216 % 256 := rfl
  rw [readU32le, h0, h1, h2, h3]
  omega

/-- The header split of `wavBytes`: the 40 bytes before the declared data
length, the `u32le` data-length field, and the sample bytes. -/
lemma wavBytes_split (b : AudioBuf) :
    wavBytes b =
      (asciiBytes "RIFF" ++ u32le (36 + (wavResult b).length * 2) ++
        asciiBytes "WAVE" ++ asciiBytes "fmt " ++ u32le 16 ++ u16le 1 ++
        u16le b.numChannels ++ u32le b.sampleRate ++
        u32le (b.sampleRate * (b.numChannels * 2)) ++
        u16le (b.numChannels * 2) ++ u16le 16 ++ asciiBytes "data") ++
      (u32le ((wavResult b).length * 2) ++
        (wavResult b).flatMap (fun x => i16le (floatTo16 x))) := by
  rw [wavBytes]
  simp [List.append_assoc]

lemma wavHeader40_length (b : AudioBuf) :
    (asciiBytes "RIFF" ++ u32le (36 + (wavResult b).length * 2) ++
      asciiBytes "WAVE" ++ asciiBytes "fmt " ++ u32le 16 ++ u16le 1 ++
      u16le b.numChannels ++ u32le b.sampleRate ++
      u32le (b.sampleRate * (b.numChannels * 2)) ++
      u16le (b.numChannels * 2) ++ u16le 16 ++ asciiBytes "data").length
      = 40 := by
  simp [List.length_append, length_u16le, length_u32le, asciiBytes]

/-- The declared data-chunk length at byte offset 40 always equals
(modulo 2^32) the number of sample bytes written after the header. -/
lemma wav_declared_matches (b : AudioBuf) :
    readU32le (wavBytes b) 40 = ((wavBytes b).length - 44) % 2 ^ 32 := by
  obtain ⟨pre, tail, hsplit, hlen, htail⟩ :
      ∃ pre tail, wavBytes b = pre ++ tail ∧ pre.length = 40 ∧
        tail = u32le ((wavResult b).length * 2) ++
          (wavResult b).flatMap (fun x => i16le (floatTo16 x)) :=
    ⟨_, _, wavBytes_split b, wavHeader40_length b, rfl⟩
  have e : ∀ k : ℕ, (wavBytes b).getD (40 + k) 0 = tail.getD k 0 := by
    intro k
    rw [hsplit, ← hlen]
    exact getD_append_exact _ _ k 0
  have e0 : (wavBytes b).getD 40 0 = tail.getD 0 0 := e 0
  have e1 : (wavBytes b).getD 41 0 = tail.getD 1 0 := e 1
  have e2 : (wavBytes b).getD 42 0 = tail.getD 2 0 := e 2
  have e3 : (wavBytes b).getD 43 0 = tail.getD 3 0 := e 3
  have hrd : readU32le (wavBytes b) 40 = readU32le tail 0 := by
    rw [readU32le, readU32le]
    simp only [Nat.reduceAdd]
    rw [e0, e1, e2, e3]
  rw [hrd, htail, u32le_readback, wavBytes_length]
  have h32 : (2 : ℕ) ^ 32 = 4294967296 := by norm_num
  rw [h32]
  omega

/-- C2 counterexample: a 3-channel, 1-frame buffer. `audioBufferToWav` only
ever writes channel 0 for channel counts other than 2, so the output is 46
bytes, not the 44 + 1 × 3 × 2 = 50 the claim requires. -/
theorem c2_wav_length_counterexample :
    (wavBytes ⟨8000, [[0], [0], [0]]⟩).length = 46 ∧
    44 + (AudioBuf.frames ⟨8000, [[0], [0], [0]]⟩) *
      (AudioBuf.numChannels ⟨8000, [[0], [0], [0]]⟩) * 2 = 50 := by
  constructor
  · rw [wavBytes_length]
    rfl
  · rfl

/-- C2 amended: with the `AudioBuffer` guarantee that every channel has
the same length and the sample byte count fitting in 32 bits: for mono
and stereo buffers the output byte length is exactly
44 + frames × channels × 2; for buffers with three or more channels only
channel 0 is written, so the output byte length is 44 + frames × 2; and
for every channel count the data-chunk length declared at byte offset 40
equals the number of sample bytes written after the 44-byte header. -/
theorem c2_wav_container_amended (b : AudioBuf)
    (hch : ∀ ch ∈ b.data, ch.length = b.frames)
    (hfit : (wavResult b).length * 2 < 2 ^ 32) :
    (0 < b.numChannels → b.numChannels ≤ 2 →
      (wavBytes b).length = 44 + b.frames * b.numChannels * 2) ∧
    (3 ≤ b.numChannels → (wavBytes b).length = 44 + b.frames * 2) ∧
    readU32le (wavBytes b) 40 = (wavBytes b).length - 44 := by
  refine ⟨?_, ?_, ?_⟩
  · intro hpos hle
    rw [wavBytes_length, wavResult_length b hch hpos hle,
      min_eq_left hle]
  · intro h3
    have hne : ¬ b.numChannels = 2 := by omega
    rw [wavBytes_length, wavResult, if_neg hne]
    rfl
  · rw [wav_declared_matches, wavBytes_length]
    simp only [Nat.add_sub_cancel_left]
    exact Nat.mod_eq_of_lt hfit

/-- Witness for c2_wav_container_amended: a concrete three-channel
two-frame buffer satisfies every hypothesis; its output is 44 + 2 × 2
bytes (only channel 0 is written) and the declared data length matches
the bytes written. -/
theorem c2_wav_container_amended_witness :
    (wavBytes ⟨8000, [[0, 1], [1/2, 0], [-1, 1/4]]⟩).length =
      44 + (AudioBuf.frames ⟨8000, [[0, 1], [1/2, 0], [-1, 1/4]]⟩) * 2 ∧
    readU32le (wavBytes ⟨8000, [[0, 1], [1/2, 0], [-1, 1/4]]⟩) 40
      = (wavBytes ⟨8000, [[0, 1], [1/2, 0], [-1, 1/4]]⟩).length - 44 := by
  have h := c2_wav_container_amended ⟨8000, [[0, 1], [1/2, 0], [-1, 1/4]]⟩
    (by
      intro ch hch
      simp only [List.mem_cons, List.not_mem_nil, or_false] at hch
      rcases hch with h | h | h <;> subst h <;> rfl)
    (by decide)
  exact ⟨h.2.1 (by norm_num [AudioBuf.numChannels]), h.2.2⟩

/-! ## C4: the Format Negotiator -/

/-- The spec's single ordered candidate ladder for `convertVideo`: the
audio ladder for audio-only targets, the mp4 ladder followed by the webm
fallback ladder for mp4-family targets, the webm ladder otherwise. -/
def convertLadder (targetFormat : String) : List String :=
  if ["weba", "mpa"].contains targetFormat.toLower then convertAudioCandidates
  else if mp4Compatible.contains targetFormat then
    convertMp4Candidates ++ convertWebmCandidates
  else convertWebmCandidates

lemma convertSelect_eq_ladder (supp : String → Bool) (target : String) :
    convertSelect supp target =
      match (convertLadder target).find? supp with
      | some m => Except.ok m
      | none => Except.error
          ("Your browser cannot encode to a format compatible with "
            ++ target.toUpper ++ ". Try using Chrome or Edge.") := by
  rw [convertSelect, convertLadder]
  by_cases ha : ["weba", "mpa"].contains target.toLower
  · simp only [if_pos ha]
  · simp only [if_neg ha]
    by_cases hm : mp4Compatible.contains target
    · simp only [if_pos hm, List.find?_append]
      cases convertMp4Candidates.find? supp <;> simp [Option.or]
    · simp only [if_neg hm]

/-- C4 counterexample: with a host that supports no candidate at all,
`trimVideo`'s negotiation does not fail — it proceeds with the default
`'video/webm'` (the `|| 'video/webm'` fallback), while `burnSubtitles`
does reject. -/
theorem c4_format_negotiator_counterexample :
    trimSelect (fun _ => false) = "video/webm" ∧
    burnSelect (fun _ => false) =
      Except.error "No supported video mime type found for recording." := by
  constructor <;> rfl

/-- C4 amended: burn-in and convert query the capability predicate over
their ordered candidate lists and select the first supported candidate, and
fail with a dedicated error when none is supported (convert's error carries
the attempted target); trim also selects the first supported candidate but,
when no candidate is supported, proceeds with the default `'video/webm'`
instead of failing. -/
theorem c4_format_negotiator_amended (supp : String → Bool) :
    ((∀ c, supp c = false) →
      burnSelect supp =
        Except.error "No supported video mime type found for recording." ∧
      trimSelect supp = "video/webm" ∧
      ∀ target, ∃ msg, convertSelect supp target = Except.error msg) ∧
    (∀ m, burnSelect supp = Except.ok m →
      ∃ pre post, burnCandidates = pre ++ m :: post ∧ supp m = true ∧
        ∀ c ∈ pre, supp c = false) ∧
    (∀ target m, convertSelect supp target = Except.ok m →
      ∃ pre post, convertLadder target = pre ++ m :: post ∧ supp m = true ∧
        ∀ c ∈ pre, supp c = false) ∧
    (∀ m, trimSelect supp = m →
      (trimCandidates.find? supp = none ∧ m = "video/webm") ∨
      ∃ pre post, trimCandidates = pre ++ m :: post ∧ supp m = true ∧
        ∀ c ∈ pre, supp c = false) := by
  refine ⟨?_, ?_, ?_, ?_⟩
  · intro hnone
    have hb : burnCandidates.find? supp = none :=
      List.find?_eq_none.mpr (fun c _ => by simp [hnone c])
    have ht : trimCandidates.find? supp = none :=
      List.find?_eq_none.mpr (fun c _ => by simp [hnone c])
    refine ⟨by rw [burnSelect, hb], by rw [trimSelect, ht]; rfl, ?_⟩
    intro target
    have hc : (convertLadder target).find? supp = none :=
      List.find?_eq_none.mpr (fun c _ => by simp [hnone c])
    exact ⟨_, by rw [convertSelect_eq_ladder, hc]⟩
  · intro m hm
    rw [burnSelect] at hm
    cases hfind : burnCandidates.find? supp with
    | none => rw [hfind] at hm; exact absurd hm (by simp)
    | some a =>
      rw [hfind] at hm
      obtain rfl : a = m := by simpa using hm
      exact find?_first supp burnCandidates _ hfind
  · intro target m hm
    rw [convertSelect_eq_ladder] at hm
    cases hfind : (convertLadder target).find? supp with
    | none => rw [hfind] at hm; exact absurd hm (by simp)
    | some a =>
      rw [hfind] at hm
      obtain rfl : a = m := by simpa using hm
      exact find?_first supp (convertLadder target) _ hfind
  · intro m hm
    rw [trimSelect] at hm
    cases hfind : trimCandidates.find? supp with
    | none =>
      rw [hfind] at hm
      exact Or.inl ⟨rfl, by simpa using hm.symm⟩
    | some a =>
      rw [hfind] at hm
      simp only [Option.getD_some] at hm
      subst hm
      exact Or.inr (find?_first supp trimCandidates a hfind)

/-- Witness for c4_format_negotiator_amended: the nothing-supported branch
applied to the always-false capability predicate. -/
theorem c4_format_negotiator_amended_witness :
    burnSelect (fun _ => false) =
      Except.error "No supported video mime type found for recording." ∧
    trimSelect (fun _ => false) = "video/webm" :=
  let h := (c4_format_negotiator_amended (fun _ => false)).1 (fun _ => rfl)
  ⟨h.1, h.2.1⟩

/-! ## C5: termination behaviour of the three operations -/

/-- Recognises the settle-delay action. -/
def isDelayAction : EndAction → Bool
  | .delayMs _ => true
  | _ => false

/-- C5 counterexample: `convertVideo`'s natural-end handler stops the
recorder with no settle delay at all — the ~1.5 s delay exists only in
`burnSubtitles`. -/
theorem c5_settle_delay_counterexample :
    EndAction.stopRecorder ∈ convertOnEnded ∧
    convertOnEnded.filter isDelayAction = [] ∧
    EndAction.delayMs 1500 ∈ burnOnEnded true := by
  refine ⟨by simp [convertOnEnded], by rfl, by simp [burnOnEnded]⟩

/-- C5 amended: on natural end, burn-in applies a 1500 ms settle delay
before stopping the encoder, while convert stops it immediately with no
delay; when trim reaches its end offset it pauses the source before
stopping the encoder, with no delay. -/
theorem c5_termination_behaviour_amended :
    (EndAction.delayMs 1500 ∈ burnOnEnded true ∧
      EndAction.stopRecorder ∈ burnOnEnded true ∧
      (burnOnEnded true).indexOf (EndAction.delayMs 1500) <
        (burnOnEnded true).indexOf EndAction.stopRecorder) ∧
    (EndAction.pauseVideo ∈ trimEndReached ∧
      EndAction.stopRecorder ∈ trimEndReached ∧
      trimEndReached.indexOf EndAction.pauseVideo <
        trimEndReached.indexOf EndAction.stopRecorder ∧
      trimEndReached.filter isDelayAction = []) ∧
    (EndAction.stopRecorder ∈ convertOnEnded ∧
      convertOnEnded.filter isDelayAction = []) := by
  refine ⟨⟨by simp [burnOnEnded], by simp [burnOnEnded], ?_⟩,
    ⟨by simp [trimEndReached], by simp [trimEndReached], ?_, by rfl⟩,
    by simp [convertOnEnded], by rfl⟩
  · decide
  · decide

/-! ## C6: progress monotonicity and the 99 cap -/

/-- C6: with a fixed positive duration (resp. a fixed range with
start < end) and non-decreasing source time, the per-frame progress values
of all three render loops are non-decreasing and never exceed 99. -/
theorem c6_progress_monotone (d s e t t' : ℚ) (hd : 0 < d) (hse : s < e)
    (ht : t ≤ t') :
    burnProgress t d ≤ burnProgress t' d ∧ burnProgress t d ≤ 99 ∧
    trimProgress t s e ≤ trimProgress t' s e ∧ trimProgress t s e ≤ 99 := by
  refine ⟨?_, min_le_right _ _, ?_, min_le_right _ _⟩
  · apply min_le_min _ le_rfl
    apply mul_le_mul_of_nonneg_right _ (by norm_num)
    exact (div_le_div_right hd).mpr ht
  · apply min_le_min _ le_rfl
    apply mul_le_mul_of_nonneg_right _ (by norm_num)
    apply (div_le_div_right (by linarith : (0 : ℚ) < e - s)).mpr
    linarith

/-- Witness for c6_progress_monotone at concrete times. -/
theorem c6_progress_monotone_witness :
    burnProgress 1 10 ≤ burnProgress 2 10 ∧ burnProgress 1 10 ≤ 99 ∧
    trimProgress 1 0 4 ≤ trimProgress 2 0 4 ∧ trimProgress 1 0 4 ≤ 99 :=
  c6_progress_monotone 10 0 4 1 2 (by norm_num) (by norm_num) (by norm_num)

/-! ## C7: the active-cue lookup -/

/-- C7: the lookup returns the first cue in list order whose closed
interval [startTime, endTime] contains the playback time (both endpoints
inclusive); it succeeds whenever any cue matches, overlap or not; and in
the boundary scenario — cue A ending at t = 2.0 listed before cue B
starting at t = 2.0 — the lookup at exactly 2.0 returns A. -/
theorem c7_active_cue_lookup :
    (∀ (subs : List Subtitle) (t : ℚ) s, activeSubtitle subs t = some s →
      s.startTime ≤ t ∧ t ≤ s.endTime ∧
      ∃ pre post, subs = pre ++ s :: post ∧
        ∀ c ∈ pre, ¬(c.startTime ≤ t ∧ t ≤ c.endTime)) ∧
    (∀ (subs : List Subtitle) (t : ℚ),
      (∃ s ∈ subs, s.startTime ≤ t ∧ t ≤ s.endTime) →
      (activeSubtitle subs t).isSome = true) ∧
    (∀ (A B : Subtitle) (rest : List Subtitle), A.startTime ≤ 2 →
      A.endTime = 2 → B.startTime = 2 →
      activeSubtitle (A :: B :: rest) 2 = some A) := by
  refine ⟨?_, ?_, ?_⟩
  · intro subs t s h
    obtain ⟨pre, post, heq, hP, hpre⟩ := find?_first _ subs s h
    simp only [Bool.and_eq_true, decide_eq_true_eq] at hP
    refine ⟨hP.1, hP.2, pre, post, heq, ?_⟩
    intro c hc hcontra
    have := hpre c hc
    simp only [Bool.and_eq_false_iff, decide_eq_false_iff_not] at this
    rcases this with h | h
    · exact h hcontra.1
    · exact h hcontra.2
  · intro subs t ⟨s, hs, h1, h2⟩
    rw [activeSubtitle, List.find?_isSome]
    exact ⟨s, hs, by simp [h1, h2]⟩
  · intro A B rest hA1 hA2 hB
    rw [activeSubtitle]
    apply List.find?_cons_of_pos
    simp [hA1, hA2]

/-- Witness for c7_active_cue_lookup: the boundary scenario with concrete
cues A = [0, 2] and B = [2, 3] at t = 2. -/
theorem c7_active_cue_lookup_witness :
    activeSubtitle [⟨1, 0, 2, ['a']⟩, ⟨2, 2, 3, ['b']⟩] 2 =
      some ⟨1, 0, 2, ['a']⟩ :=
  c7_active_cue_lookup.2.2 ⟨1, 0, 2, ['a']⟩ ⟨2, 2, 3, ['b']⟩ []
    (by norm_num) (by norm_num) (by norm_num)

/-! ## C8: the Offline Mixing Engine -/

lemma schedOffsets_getD :
    ∀ (ds : List ℚ) (t : ℚ) (i : ℕ), i < ds.length →
      (schedOffsets t ds).getD i 0 = t + (ds.take i).sum := by
  intro ds
  induction ds with
  | nil => intro t i hi; simp at hi
  | cons d rest ih =>
    intro t i hi
    cases i with
    | zero => simp [schedOffsets]
    | succ i' =>
      have hi' : i' < rest.length := by simpa using Nat.lt_of_succ_lt_succ hi
      rw [schedOffsets, List.getD_cons_succ, ih (t + d) i' hi']
      simp [List.take_succ_cons]
      ring

lemma mergeTotal_eq_sum (ds : List ℚ) : mergeTotalDuration ds = ds.sum := by
  rw [mergeTotalDuration, List.sum_eq_foldl]

/-- C8 counterexample: two tracks of 1/100000 s each. The code asks the
rendering context for `44100 × totalDuration = 0.882` frames — the host's
`unsigned long` coercion truncates this to 0, not the `ceil` of 1 the claim
states — and the resulting buffer duration 0 is strictly less than
d1 + d2. -/
theorem c8_offline_mix_counterexample :
    mergeLengthFrames [1/100000, 1/100000] = 0 ∧
    ⌈mergeLengthArg [1/100000, 1/100000]⌉ = 1 ∧
    ((mergeLengthFrames [1/100000, 1/100000] : ℚ) / 44100 <
      mergeTotalDuration [1/100000, 1/100000]) := by
  have harg : mergeLengthArg [1/100000, 1/100000] = 441/500 := by
    rw [mergeLengthArg, mergeTotalDuration]
    norm_num [List.foldl, mergeSampleRate]
  have htot : mergeTotalDuration [1/100000, 1/100000] = 1/50000 := by
    rw [mergeTotalDuration]
    norm_num [List.foldl]
  have hfloor : ⌊(441/500 : ℚ)⌋ = 0 := by
    rw [Int.floor_eq_zero_iff, Set.mem_Ico]
    constructor <;> norm_num
  have hframes : mergeLengthFrames [1/100000, 1/100000] = 0 := by
    rw [mergeLengthFrames, harg, ratTrunc_nonneg_eq (by norm_num), hfloor]
    rfl
  refine ⟨hframes, ?_, ?_⟩
  · rw [harg, Int.ceil_eq_iff]
    constructor <;> norm_num
  · rw [hframes, htot]
    norm_num

/-- C8 amended: the merge computes total duration as the sum of the track
durations, forces 2 channels at 44100 Hz, sizes the rendering context to
the truncation (not the ceiling) of `44100 × totalDuration` frames — so the
combined duration can fall short of the duration sum by up to one sample
period — and schedules track i at the cumulative end time of tracks
0..i-1; in particular for two tracks the schedule is [0, d1]. -/
theorem c8_offline_mix_amended (ds : List ℚ) (hpos : ∀ d ∈ ds, 0 ≤ d)
    (hfit : mergeLengthArg ds < 2 ^ 32) :
    mergeTotalDuration ds = ds.sum ∧
    mergeChannels = 2 ∧ mergeSampleRate = 44100 ∧
    mergeLengthFrames ds = (⌊mergeLengthArg ds⌋).toNat ∧
    mergeTotalDuration ds - 1 / 44100 < (mergeLengthFrames ds : ℚ) / 44100 ∧
    (mergeLengthFrames ds : ℚ) / 44100 ≤ mergeTotalDuration ds ∧
    (∀ i, i < ds.length → (mergeOffsets ds).getD i 0 = (ds.take i).sum) ∧
    (∀ d1 d2 : ℚ, mergeOffsets [d1, d2] = [0, d1]) := by
  have hsum0 : (0 : ℚ) ≤ ds.sum := List.sum_nonneg hpos
  have htot := mergeTotal_eq_sum ds
  have harg0 : (0 : ℚ) ≤ mergeLengthArg ds := by
    rw [mergeLengthArg, htot]
    positivity
  have hfl0 : (0 : ℤ) ≤ ⌊mergeLengthArg ds⌋ := Int.floor_nonneg.mpr harg0
  have hfl32 : ⌊mergeLengthArg ds⌋ < 2 ^ 32 := by
    rw [Int.floor_lt]
    exact lt_of_lt_of_le hfit (by norm_num)
  have hframes : mergeLengthFrames ds = (⌊mergeLengthArg ds⌋).toNat := by
    rw [mergeLengthFrames, ratTrunc_nonneg_eq harg0,
      Int.emod_eq_of_lt hfl0 (by exact_mod_cast hfl32)]
  have hcast : ((mergeLengthFrames ds : ℕ) : ℚ) = (⌊mergeLengthArg ds⌋ : ℚ) := by
    rw [hframes]
    exact_mod_cast congrArg (fun z : ℤ => (z : ℚ)) (Int.toNat_of_nonneg hfl0)
  have hdur : mergeTotalDuration ds = mergeLengthArg ds / 44100 := by
    rw [mergeLengthArg, mergeSampleRate]
    field_simp
  refine ⟨htot, rfl, rfl, hframes, ?_, ?_, ?_, ?_⟩
  · rw [hcast, hdur]
    rw [div_sub_div_same, div_lt_div_iff (by norm_num) (by norm_num)]
    have := Int.sub_one_lt_floor (mergeLengthArg ds)
    nlinarith [this]
  · rw [hcast, hdur]
    apply div_le_div_of_nonneg_right ?_ (by norm_num)
    exact Int.floor_le _
  · intro i hi
    rw [mergeOffsets, schedOffsets_getD ds 0 i hi, zero_add]
  · intro d1 d2
    rw [mergeOffsets, schedOffsets, schedOffsets, schedOffsets, zero_add]

/-- Witness for c8_offline_mix_amended: two tracks of 1 s and 2 s. -/
theorem c8_offline_mix_amended_witness :
    mergeTotalDuration [1, 2] = ([1, 2] : List ℚ).sum ∧
    mergeOffsets [(1 : ℚ), 2] = [0, 1] :=
  let h := c8_offline_mix_amended [1, 2]
    (by intro d hd; simp only [List.mem_cons, List.not_mem_nil, or_false] at hd
        rcases hd with h | h <;> subst h <;> norm_num)
    (by rw [mergeLengthArg, mergeTotalDuration]
        norm_num [List.foldl, mergeSampleRate])
  ⟨h.1, h.2.2.2.2.2.2.2 1 2⟩

/-! ## String-level machinery for the subtitle helpers (part_001 lines
5-97): JavaScript strings are modelled as `List Char`. -/

/-- ECMAScript WhiteSpace ∪ LineTerminator: the character class used by
`String.prototype.trim`, by `\s` in regexps, and by `Number()`'s input
trimming. -/
def isJsWS (c : Char) : Bool :=
  c = ' ' || c = '\t' || c = '\n' || c = '\r' ||
  c = '\x0b' || c = '\x0c' || c = '\u00a0' || c = '\u1680' ||
  ('\u2000' ≤ c && c ≤ '\u200a') || c = '\u2028' || c = '\u2029' ||
  c = '\u202f' || c = '\u205f' || c = '\u3000' || c = '\ufeff'

/-- ASCII decimal digit test (`\d` in the SRT time regexp). -/
def isDigitCh (c : Char) : Bool := '0' ≤ c && c ≤ '9'

/-- The decimal digit character for a value < 10. -/
def digitChar (n : ℕ) : Char := Char.ofNat (48 + n)

/-- Digit value of a character (used when parsing digit runs). -/
def digitVal (c : Char) : ℕ := c.toNat - 48

/-- Decimal rendering of a natural number, as JavaScript's
`String(n)` produces for integral values (fuel-structured so that it
reduces by evaluation). -/
def natToCharsAux : ℕ → ℕ → List Char
  | 0, _ => []
  | fuel + 1, n =>
    if n < 10 then [digitChar n]
    else natToCharsAux fuel (n / 10) ++ [digitChar (n % 10)]

def natToChars (n : ℕ) : List Char := natToCharsAux (n + 1) n

/-- `String(z)` for an integral JavaScript number. -/
def intToChars (z : ℤ) : List Char :=
  if z < 0 then '-' :: natToChars (-z).toNat else natToChars z.toNat

/-- Value of a digit run (the core of `Number()` on an integer literal). -/
def charsVal (cs : List Char) : ℕ :=
  cs.foldl (fun a c => 10 * a + digitVal c) 0

/-- `split(sep)` for a single-character separator, as
`String.prototype.split` behaves: every occurrence splits, empty pieces
kept, always at least one piece. -/
def splitChar (sep : Char) : List Char → List (List Char)
  | [] => [[]]
  | c :: rest =>
    if c = sep then [] :: splitChar sep rest
    else
      match splitChar sep rest with
      | [] => [[c]]
      | p :: ps => (c :: p) :: ps

/-- `String.prototype.trim`. -/
def trimJs (cs : List Char) : List Char :=
  ((cs.dropWhile isJsWS).reverse.dropWhile isJsWS).reverse

/-- `replace('.', ',')` with a string pattern: JavaScript replaces only the
first occurrence. -/
def replaceFirst (a b : Char) : List Char → List Char
  | [] => []
  | c :: rest => if c = a then b :: rest else c :: replaceFirst a b rest

/-- `join(sep)`: concatenation with a separator between pieces, as
`Array.prototype.join` behaves. -/
def joinWith (sep : List Char) : List (List Char) → List Char
  | [] => []
  | [p] => p
  | p :: ps => p ++ sep ++ joinWith sep ps

lemma joinWith_cons_cons (sep p q : List Char) (qs : List (List Char)) :
    joinWith sep (p :: q :: qs) = p ++ sep ++ joinWith sep (q :: qs) := rfl

lemma joinWith_singleton (sep p : List Char) : joinWith sep [p] = p := rfl

/-- First pass of `parseSRT`'s normalisation: `replace(/\r\n/g, '\n')`,
scanning left to right. -/
def replaceCRLF : List Char → List Char
  | [] => []
  | [c] => [c]
  | c :: d :: rest =>
    if c = '\r' ∧ d = '\n' then '\n' :: replaceCRLF rest
    else c :: replaceCRLF (d :: rest)

/-- Second pass: `replace(/\r/g, '\n')`. -/
def replaceCR (cs : List Char) : List Char :=
  cs.map (fun c => if c = '\r' then '\n' else c)

/-- `parseSRT`'s newline normalisation. -/
def normalizeNL (cs : List Char) : List Char := replaceCR (replaceCRLF cs)

/-! ### Basic lemmas about the string helpers -/

lemma splitChar_ne_nil (sep : Char) : ∀ cs, splitChar sep cs ≠ [] := by
  intro cs
  induction cs with
  | nil => simp [splitChar]
  | cons c rest ih =>
    rw [splitChar]
    by_cases h : c = sep
    · simp [h]
    · simp only [if_neg h]
      cases hs : splitChar sep rest with
      | nil => simp
      | cons p ps => simp

lemma splitChar_not_mem {sep : Char} {cs : List Char} (h : sep ∉ cs) :
    splitChar sep cs = [cs] := by
  induction cs with
  | nil => rfl
  | cons c rest ih =>
    rw [splitChar]
    have hc : ¬ c = sep := fun hc => h (hc ▸ List.mem_cons_self c rest)
    rw [if_neg hc, ih (fun hm => h (List.mem_cons_of_mem c hm))]

lemma splitChar_append {sep : Char} {a : List Char} (b : List Char)
    (h : sep ∉ a) :
    splitChar sep (a ++ sep :: b) = a :: splitChar sep b := by
  induction a with
  | nil => simp [splitChar]
  | cons c rest ih =>
    have hc : ¬ c = sep := fun hc => h (hc ▸ List.mem_cons_self c rest)
    rw [List.cons_append, splitChar, if_neg hc,
      ih (fun hm => h (List.mem_cons_of_mem c hm))]

lemma joinWith_splitChar (sep : Char) :
    ∀ cs, joinWith [sep] (splitChar sep cs) = cs := by
  intro cs
  induction cs with
  | nil => rfl
  | cons c rest ih =>
    rw [splitChar]
    by_cases h : c = sep
    · subst h
      rw [if_pos rfl]
      cases hs : splitChar c rest with
      | nil => exact absurd hs (splitChar_ne_nil c rest)
      | cons p ps =>
        rw [hs] at ih
        rw [joinWith_cons_cons, List.nil_append, List.singleton_append, ih]
    · rw [if_neg h]
      cases hs : splitChar sep rest with
      | nil => exact absurd hs (splitChar_ne_nil sep rest)
      | cons p ps =>
        rw [hs] at ih
        cases ps with
        | nil =>
          show joinWith [sep] [c :: p] = c :: rest
          rw [joinWith_singleton]
          rw [joinWith_singleton] at ih
          rw [ih]
        | cons q qs =>
          show joinWith [sep] ((c :: p) :: q :: qs) = c :: rest
          rw [joinWith_cons_cons] at ih ⊢
          simp only [List.cons_append, List.append_assoc] at ih ⊢
          rw [ih]

lemma replaceFirst_not_mem {a : Char} (b : Char) {cs : List Char}
    (h : a ∉ cs) : replaceFirst a b cs = cs := by
  induction cs with
  | nil => rfl
  | cons c rest ih =>
    have hc : ¬ c = a := fun hc => h (by rw [← hc]; exact List.mem_cons_self c rest)
    have hr : a ∉ rest := fun hm => h (List.mem_cons_of_mem c hm)
    rw [replaceFirst, if_neg hc, ih hr]

lemma replaceCRLF_cons_ne {c : Char} (rest : List Char) (hc : c ≠ '\r') :
    replaceCRLF (c :: rest) = c :: replaceCRLF rest := by
  cases rest with
  | nil => rfl
  | cons d rest2 =>
    rw [replaceCRLF, if_neg (fun hand => hc hand.1)]

lemma replaceCRLF_not_mem : ∀ {cs : List Char}, '\r' ∉ cs →
    replaceCRLF cs = cs := by
  intro cs
  induction cs with
  | nil => intro _; rfl
  | cons c rest ih =>
    intro h
    have hc : c ≠ '\r' := fun hc => h (by rw [← hc]; exact List.mem_cons_self c rest)
    have hr : '\r' ∉ rest := fun hm => h (List.mem_cons_of_mem c hm)
    rw [replaceCRLF_cons_ne rest hc, ih hr]

lemma replaceCR_not_mem {cs : List Char} (h : '\r' ∉ cs) :
    replaceCR cs = cs := by
  rw [replaceCR]
  apply List.map_congr_left ?_ |>.trans (List.map_id cs)
  intro c hc
  have : c ≠ '\r' := fun hceq => h (hceq ▸ hc)
  simp [this]

lemma normalizeNL_not_mem {cs : List Char} (h : '\r' ∉ cs) :
    normalizeNL cs = cs := by
  rw [normalizeNL, replaceCRLF_not_mem h, replaceCR_not_mem h]

/-! ## JavaScript numbers with special values, and `Number()` -/

/-- A JavaScript number as `timeToSeconds` can observe it: NaN, the two
infinities, or a finite value (finite arithmetic modelled exactly). -/
inductive JSNum where
  | nan : JSNum
  | inf : JSNum
  | ninf : JSNum
  | fin (q : ℚ) : JSNum
  deriving DecidableEq, Repr

def JSNum.isNaN : JSNum → Bool
  | .nan => true
  | _ => false

/-- The finite value of a JavaScript number (0 for NaN/±∞); used where the
observed code only ever produces finite values. -/
def JSNum.toQ : JSNum → ℚ
  | .fin q => q
  | _ => 0

/-- IEEE addition on the special-value level; finite addition exact. -/
def jsAdd : JSNum → JSNum → JSNum
  | .nan, _ => .nan
  | _, .nan => .nan
  | .inf, .ninf => .nan
  | .ninf, .inf => .nan
  | .inf, _ => .inf
  | _, .inf => .inf
  | .ninf, _ => .ninf
  | _, .ninf => .ninf
  | .fin a, .fin b => .fin (a + b)

/-- Multiplication by a positive finite constant (3600 and 60 here). -/
def jsMulPos : JSNum → ℚ → JSNum
  | .nan, _ => .nan
  | .inf, _ => .inf
  | .ninf, _ => .ninf
  | .fin a, c => .fin (a * c)

/-- Division by the positive constant 1000. -/
def jsDiv1000 : JSNum → JSNum
  | .nan => .nan
  | .inf => .inf
  | .ninf => .ninf
  | .fin a => .fin (a / 1000)

/-- `x || 0` on a number: NaN (and 0 itself) are falsy. -/
def jsOrZero : JSNum → JSNum
  | .nan => .fin 0
  | x => x

/-! ### `Number()` — ECMAScript StringToNumber -/

def isHexDigit (c : Char) : Bool :=
  isDigitCh c || ('a' ≤ c && c ≤ 'f') || ('A' ≤ c && c ≤ 'F')

def isOctDigit (c : Char) : Bool := '0' ≤ c && c ≤ '7'

def isBinDigit (c : Char) : Bool := c = '0' || c = '1'

def hexDigitVal (c : Char) : ℕ :=
  if isDigitCh c then digitVal c
  else if 'a' ≤ c && c ≤ 'f' then c.toNat - 87
  else c.toNat - 55

def radixVal (base : ℕ) (cs : List Char) : ℕ :=
  cs.foldl (fun a c => base * a + hexDigitVal c) 0

/-- A non-decimal integer literal body (after `0x`/`0o`/`0b`). -/
def parseRadix (base : ℕ) (pred : Char → Bool) (ds : List Char) : Option ℚ :=
  if ds ≠ [] ∧ ds.all pred then some ((radixVal base ds : ℕ) : ℚ) else none

/-- The exponent part of a decimal literal; `[]` means no exponent. The
whole remainder must be consumed. -/
def parseExpPart : List Char → Option ℤ
  | [] => some 0
  | c :: rest =>
    if c = 'e' ∨ c = 'E' then
      match rest with
      | '+' :: ds =>
        if ds ≠ [] ∧ ds.all isDigitCh then some (charsVal ds : ℤ) else none
      | '-' :: ds =>
        if ds ≠ [] ∧ ds.all isDigitCh then some (-(charsVal ds : ℤ)) else none
      | ds =>
        if ds ≠ [] ∧ ds.all isDigitCh then some (charsVal ds : ℤ) else none
    else none

/-- StrUnsignedDecimalLiteral: `digits [. digits] [exp]` or `. digits
[exp]`, consuming the whole input. -/
def parseUnsignedDec (cs : List Char) : Option ℚ :=
  let ip := cs.takeWhile isDigitCh
  let rest := cs.dropWhile isDigitCh
  match rest with
  | '.' :: rest2 =>
    let fp := rest2.takeWhile isDigitCh
    let rest3 := rest2.dropWhile isDigitCh
    if ip = [] ∧ fp = [] then none
    else (parseExpPart rest3).map (fun e =>
      (((charsVal ip : ℕ) : ℚ) + ((charsVal fp : ℕ) : ℚ) / 10 ^ fp.length)
        * (10 : ℚ) ^ e)
  | _ =>
    if ip = [] then none
    else (parseExpPart rest).map (fun e => ((charsVal ip : ℕ) : ℚ) * (10 : ℚ) ^ e)

/-- A signed decimal body (sign already consumed): `Infinity` or an
unsigned decimal literal. -/
def parseJsBody (t : List Char) (neg : Bool) : JSNum :=
  if t = "Infinity".data then (if neg then .ninf else .inf)
  else match parseUnsignedDec t with
    | some q => .fin (if neg then -q else q)
    | none => .nan

/-- ECMAScript `Number()` on a string: trim, empty → 0, optional sign with
decimal/Infinity body, or an unsigned `0x`/`0o`/`0b` radix literal;
anything else is NaN. -/
def jsNumber (cs : List Char) : JSNum :=
  match trimJs cs with
  | [] => .fin 0
  | '+' :: rest => parseJsBody rest false
  | '-' :: rest => parseJsBody rest true
  | '0' :: c :: ds =>
    if c = 'x' ∨ c = 'X' then
      match parseRadix 16 isHexDigit ds with
      | some q => .fin q
      | none => .nan
    else if c = 'o' ∨ c = 'O' then
      match parseRadix 8 isOctDigit ds with
      | some q => .fin q
      | none => .nan
    else if c = 'b' ∨ c = 'B' then
      match parseRadix 2 isBinDigit ds with
      | some q => .fin q
      | none => .nan
    else parseJsBody ('0' :: c :: ds) false
  | t => parseJsBody t false

/-! ## `timeToSeconds` (part_001 lines 5-38), staged by source line -/

/-- Line 13: `timeString.replace('.', ',')`. -/
def ttsNormalized (ts : List Char) : List Char := replaceFirst '.' ',' ts

/-- Lines 14-21: the part before the first comma (the whole string when no
comma is present). -/
def ttsTimePart (ts : List Char) : List Char :=
  if (ttsNormalized ts).contains ',' then
    (splitChar ',' (ttsNormalized ts)).getD 0 []
  else ttsNormalized ts

/-- Lines 15-21: `split[1] || "0"` (defaults on a missing or empty second
piece). -/
def ttsMsPart (ts : List Char) : List Char :=
  if (ttsNormalized ts).contains ',' then
    if (splitChar ',' (ttsNormalized ts)).getD 1 [] = [] then ['0']
    else (splitChar ',' (ttsNormalized ts)).getD 1 []
  else ['0']

/-- Line 23: `timePart.split(':').map(Number)`. -/
def ttsParts (ts : List Char) : List JSNum :=
  (splitChar ':' (ttsTimePart ts)).map jsNumber

/-- Lines 25-33: the destructuring by `parts.length` (3, 2, 1, otherwise
all three stay 0). -/
def ttsHMS : List JSNum → JSNum × JSNum × JSNum
  | [h, m, s] => (h, m, s)
  | [m, s] => (.fin 0, m, s)
  | [s] => (.fin 0, .fin 0, s)
  | _ => (.fin 0, .fin 0, .fin 0)

/-- Line 36: `hours * 3600 + minutes * 60 + seconds +
(Number(milliseconds) || 0) / 1000`. -/
def ttsResult (ts : List Char) : JSNum :=
  jsAdd (jsAdd (jsAdd (jsMulPos (ttsHMS (ttsParts ts)).1 3600)
      (jsMulPos (ttsHMS (ttsParts ts)).2.1 60))
    (ttsHMS (ttsParts ts)).2.2)
    (jsDiv1000 (jsOrZero (jsNumber (ttsMsPart ts))))

/-- Line 37: `isNaN(result) ? 0 : result`. -/
def ttsGuard (r : JSNum) : JSNum := if r.isNaN then .fin 0 else r

/-- `timeToSeconds`: `undefined`/`null` are `none`; the falsy check
handles the empty string. -/
def timeToSeconds (input : Option (List Char)) : JSNum :=
  match input with
  | none => .fin 0
  | some ts => if ts = [] then .fin 0 else ttsGuard (ttsResult ts)

/-! ## C10: totality and NaN-freedom of `timeToSeconds` -/

lemma jsAdd_nan_left (y : JSNum) : jsAdd .nan y = .nan := by
  cases y <;> rfl

lemma jsAdd_nan_right (x : JSNum) : jsAdd x .nan = .nan := by
  cases x <;> rfl

lemma jsMulPos_nan (c : ℚ) : jsMulPos .nan c = .nan := rfl

lemma ttsGuard_not_nan (r : JSNum) : (ttsGuard r).isNaN = false := by
  cases r <;> rfl

lemma hmsSum_nan (h m s x : JSNum)
    (hn : h = .nan ∨ m = .nan ∨ s = .nan) :
    jsAdd (jsAdd (jsAdd (jsMulPos h 3600) (jsMulPos m 60)) s) x = .nan := by
  rcases hn with rfl | rfl | rfl
  · rw [jsMulPos_nan, jsAdd_nan_left, jsAdd_nan_left, jsAdd_nan_left]
  · rw [jsMulPos_nan, jsAdd_nan_right, jsAdd_nan_left, jsAdd_nan_left]
  · rw [jsAdd_nan_right, jsAdd_nan_left]

lemma ttsResult_nan {ts : List Char} (hlen : (ttsParts ts).length ≤ 3)
    (hmem : JSNum.nan ∈ ttsParts ts) : ttsResult ts = .nan := by
  rcases hp : ttsParts ts with _ | ⟨a, _ | ⟨b, _ | ⟨c, _ | ⟨d, rest⟩⟩⟩⟩
  · rw [hp] at hmem; simp at hmem
  · rw [hp] at hmem
    simp only [List.mem_singleton] at hmem
    rw [ttsResult, hp]
    show jsAdd (jsAdd (jsAdd (jsMulPos (JSNum.fin 0) 3600)
      (jsMulPos (JSNum.fin 0) 60)) a)
      (jsDiv1000 (jsOrZero (jsNumber (ttsMsPart ts)))) = .nan
    exact hmsSum_nan _ _ _ _ (Or.inr (Or.inr hmem.symm))
  · rw [hp] at hmem
    rw [ttsResult, hp]
    show jsAdd (jsAdd (jsAdd (jsMulPos (JSNum.fin 0) 3600)
      (jsMulPos a 60)) b)
      (jsDiv1000 (jsOrZero (jsNumber (ttsMsPart ts)))) = .nan
    apply hmsSum_nan
    simp only [List.mem_cons, List.not_mem_nil, or_false] at hmem
    rcases hmem with h | h
    · exact Or.inr (Or.inl h.symm)
    · exact Or.inr (Or.inr h.symm)
  · rw [hp] at hmem
    rw [ttsResult, hp]
    show jsAdd (jsAdd (jsAdd (jsMulPos a 3600) (jsMulPos b 60)) c)
      (jsDiv1000 (jsOrZero (jsNumber (ttsMsPart ts)))) = .nan
    apply hmsSum_nan
    simp only [List.mem_cons, List.not_mem_nil, or_false] at hmem
    rcases hmem with h | h | h
    · exact Or.inl h.symm
    · exact Or.inr (Or.inl h.symm)
    · exact Or.inr (Or.inr h.symm)
  · rw [hp] at hlen
    simp at hlen

/-- C10 counterexample: `"a:b:c:d,500"` has four colon-separated parts,
none of which parses as a number, yet `timeToSeconds` returns 0.5 (the
millisecond field alone), not 0: with four or more parts the destructuring
assigns nothing and hours = minutes = seconds stay 0. -/
theorem c10_time_to_seconds_counterexample :
    timeToSeconds (some ['a', ':', 'b', ':', 'c', ':', 'd', ',', '5', '0', '0'])
      = JSNum.fin (1/2) ∧
    (ttsParts ['a', ':', 'b', ':', 'c', ':', 'd', ',', '5', '0', '0']).all
      JSNum.isNaN = true ∧
    JSNum.fin (1/2) ≠ JSNum.fin 0 := by
  refine ⟨?_, by decide, ?_⟩
  · have h : timeToSeconds
        (some ['a', ':', 'b', ':', 'c', ':', 'd', ',', '5', '0', '0'])
        = JSNum.fin (0 * 3600 + 0 * 60 + 0 +
            (((charsVal ['5', '0', '0'] : ℕ) : ℚ) * (10 : ℚ) ^ (0 : ℤ)) / 1000) := rfl
    have hv : charsVal ['5', '0', '0'] = 500 := by decide
    rw [h, hv]
    norm_num
  · intro h
    have : (1 / 2 : ℚ) = 0 := by injection h
    norm_num at this

/-- C10 amended: `timeToSeconds` is total and never NaN (the final
`isNaN` guard maps NaN to 0); `undefined`, `null` and the empty string give
0; and every input with at most three colon-separated time parts of which
some part fails to parse as a number gives 0. (With four or more parts the
time parts are ignored entirely and the result is the millisecond field
alone, which can be non-zero even when no part parses — see the
counterexample.) -/
theorem c10_time_to_seconds_amended :
    (∀ x : Option (List Char), (timeToSeconds x).isNaN = false) ∧
    timeToSeconds none = .fin 0 ∧
    timeToSeconds (some []) = .fin 0 ∧
    (∀ cs : List Char, (ttsParts cs).length ≤ 3 → JSNum.nan ∈ ttsParts cs →
      timeToSeconds (some cs) = .fin 0) := by
  refine ⟨?_, rfl, rfl, ?_⟩
  · intro x
    match x with
    | none => rfl
    | some ts =>
      by_cases h : ts = []
      · subst h; rfl
      · rw [timeToSeconds, if_neg h]
        exact ttsGuard_not_nan _
  · intro cs hlen hmem
    by_cases h : cs = []
    · subst h; rfl
    · rw [timeToSeconds, if_neg h, ttsResult_nan hlen hmem]
      rfl

/-- Witness for c10_time_to_seconds_amended: the unparseable-parts branch
applied at the concrete input `"ab:cd"`. -/
theorem c10_time_to_seconds_amended_witness :
    timeToSeconds (some ['a', 'b', ':', 'c', 'd']) = .fin 0 :=
  c10_time_to_seconds_amended.2.2.2 ['a', 'b', ':', 'c', 'd']
    (by decide) (by decide)

/-! ## The SRT generator (part_001 lines 83-97) -/

/-- JavaScript's `%` remainder (sign of the dividend). -/
def jsMod (a b : ℚ) : ℚ := a - b * ratTrunc (a / b)

/-- `('000' + num).slice(-size)`. -/
def jsPad (num : ℤ) (size : ℕ) : List Char :=
  ('0' :: '0' :: '0' :: intToChars num).drop
    (('0' :: '0' :: '0' :: intToChars num).length - size)

/-- `secondsToTime`: `HH:MM:SS<sep>mmm` via `Math.floor` on the hour,
minute and second quotients and `Math.round` on the milliseconds. -/
def secondsToTime (seconds : ℚ) (sep : Char) : List Char :=
  jsPad ⌊seconds / 3600⌋ 2 ++ ':' ::
  (jsPad ⌊jsMod seconds 3600 / 60⌋ 2 ++ ':' ::
  (jsPad ⌊jsMod seconds 60⌋ 2 ++ sep ::
  jsPad (round (jsMod seconds 1 * 1000)) 3))

/-- The `--> ` separator written between the two timestamps. -/
def srtArrow : List Char := [' ', '-', '-', '>', ' ']

/-- One generated block: `${index + 1}\n${start} --> ${end}\n${text}`. -/
def srtBlock (n : ℕ) (sub : Subtitle) : List Char :=
  natToChars n ++ '\n' ::
  (secondsToTime sub.startTime ',' ++ srtArrow ++
   secondsToTime sub.endTime ',' ++ '\n' :: sub.text)

/-- The mapped blocks, numbering from `n` (the code maps with `index + 1`,
so the top-level call starts at 1). -/
def srtBlocks : ℕ → List Subtitle → List (List Char)
  | _, [] => []
  | n, sub :: rest => srtBlock n sub :: srtBlocks (n + 1) rest

/-- `generateSRT`: blocks joined by a blank line. -/
def generateSRT (subs : List Subtitle) : List Char :=
  joinWith ['\n', '\n'] (srtBlocks 1 subs)

/-! ## The SRT parser (part_001 lines 41-80) -/

/-- One step of `split(/\n\s*\n/)`: does a separator match begin here?
The regexp needs a `\n`, then a greedy `\s*` that backtracks so that a
final `\n` remains: it succeeds iff the whitespace run after the first
`\n` contains another `\n`, and it consumes through the last `\n` of the
run. Returns the remainder after the separator. -/
def matchSep : List Char → Option (List Char)
  | c :: rest =>
    if c = '\n' ∧ '\n' ∈ rest.takeWhile isJsWS then
      some ((((rest.takeWhile isJsWS).reverse.takeWhile
          (fun c => c != '\n')).reverse)
        ++ rest.dropWhile isJsWS)
    else none
  | [] => none

lemma takeWhile_length_lt {α : Type} {p : α → Bool} :
    ∀ {l : List α}, (∃ x ∈ l, p x = false) →
      (l.takeWhile p).length < l.length := by
  intro l
  induction l with
  | nil => rintro ⟨x, hx, _⟩; simp at hx
  | cons c rest ih =>
    rintro ⟨x, hx, hpx⟩
    rw [List.takeWhile_cons]
    by_cases hc : p c
    · rw [if_pos hc]
      rcases List.mem_cons.mp hx with h | h
      · subst h; rw [hc] at hpx; simp at hpx
      · simpa using ih ⟨x, h, hpx⟩
    · rw [if_neg hc]
      simp

lemma matchSep_length {cs rem : List Char} (h : matchSep cs = some rem) :
    rem.length + 2 ≤ cs.length := by
  cases cs with
  | nil => simp [matchSep] at h
  | cons c rest =>
    rw [matchSep] at h
    by_cases hcond : c = '\n' ∧ '\n' ∈ rest.takeWhile isJsWS
    · rw [if_pos hcond] at h
      cases h
      have h1 : ((rest.takeWhile isJsWS).reverse.takeWhile
          (fun c => c != '\n')).length < (rest.takeWhile isJsWS).length := by
        have hlt := @takeWhile_length_lt Char (fun c => c != '\n')
          ((rest.takeWhile isJsWS).reverse)
          ⟨'\n', List.mem_reverse.mpr hcond.2, by simp⟩
        simpa using hlt
      have h2 : (rest.takeWhile isJsWS).length +
          (rest.dropWhile isJsWS).length = rest.length := by
        rw [← List.length_append, List.takeWhile_append_dropWhile]
      simp only [List.length_append, List.length_reverse, List.length_cons]
      omega
    · rw [if_neg hcond] at h; exact absurd h (by simp)

/-- `split(/\n\s*\n/)` as `String.prototype.split` performs it: scan left
to right, cut at each leftmost separator match. Fuel-structured (the fuel
never runs out when it starts at the string length). -/
def splitBlocksAux : ℕ → List Char → List Char → List (List Char)
  | _, [], acc => [acc.reverse]
  | 0, _ :: _, acc => [acc.reverse]
  | fuel + 1, c :: rest, acc =>
    match matchSep (c :: rest) with
    | some rem => acc.reverse :: splitBlocksAux fuel rem []
    | none => splitBlocksAux fuel rest (c :: acc)

def splitBlocks (cs : List Char) : List (List Char) :=
  splitBlocksAux cs.length cs []

/-! ### The time-pair regexp
`/(\d{1,2}:\d{2}:\d{2}(?:[,.]\d{1,3})?)\s*-->\s*(\d{1,2}:\d{2}:\d{2}(?:[,.]\d{1,3})?)/`
matched by search with greedy quantifiers. -/

/-- The fixed `:\d{2}:\d{2}` core after the hour digits: returns the
matched characters and the remainder. -/
def tpTail : List Char → Option (List Char × List Char)
  | ':' :: d1 :: d2 :: ':' :: d3 :: d4 :: rest =>
    if isDigitCh d1 && isDigitCh d2 && isDigitCh d3 && isDigitCh d4 then
      some ([':', d1, d2, ':', d3, d4], rest)
    else none
  | _ => none

/-- The optional `(?:[,.]\d{1,3})?`, greedy: up to three digits after a
comma or dot; absent when no digit follows. -/
def msOpt (cs : List Char) : List Char × List Char :=
  match cs with
  | sepc :: rest =>
    if sepc = ',' ∨ sepc = '.' then
      match (rest.takeWhile isDigitCh).take 3 with
      | [] => ([], cs)
      | ds => (sepc :: ds, rest.drop ds.length)
    else ([], cs)
  | [] => ([], cs)

/-- One timestamp token `\d{1,2}:\d{2}:\d{2}(?:[,.]\d{1,3})?` anchored at
the current position: greedy two-digit hour first, backtracking to one
digit. -/
def matchToken (cs : List Char) : Option (List Char × List Char) :=
  match cs with
  | c1 :: c2 :: rest =>
    if isDigitCh c1 then
      if isDigitCh c2 then
        match tpTail rest with
        | some (t, r) => some (c1 :: c2 :: (t ++ (msOpt r).1), (msOpt r).2)
        | none =>
          match tpTail (c2 :: rest) with
          | some (t, r) => some (c1 :: (t ++ (msOpt r).1), (msOpt r).2)
          | none => none
      else
        match tpTail (c2 :: rest) with
        | some (t, r) => some (c1 :: (t ++ (msOpt r).1), (msOpt r).2)
        | none => none
    else none
  | _ => none

/-- The whole pattern anchored at the current position: token, `\s*`,
`-->`, `\s*`, token; yields the two capture groups. -/
def matchPairAt (cs : List Char) : Option (List Char × List Char) :=
  match matchToken cs with
  | some (t1, r1) =>
    match r1.dropWhile isJsWS with
    | '-' :: '-' :: '>' :: r3 =>
      match matchToken (r3.dropWhile isJsWS) with
      | some (t2, _) => some (t1, t2)
      | none => none
    | _ => none
  | none => none

/-- `line.match(timeRegexp)`: try each start position left to right. -/
def matchTimePair : List Char → Option (List Char × List Char)
  | [] => none
  | c :: rest =>
    match matchPairAt (c :: rest) with
    | some p => some p
    | none => matchTimePair rest

/-! ### `parseSRT` proper -/

/-- One iteration of the `blocks.forEach` body: parse a block, with the
assigned id `subtitles.length + 1` taken from the accumulator length. -/
def parseBlock (block : List Char) (curCount : ℕ) : Option Subtitle :=
  let lines := splitChar '\n' (trimJs block)
  match lines.findIdx? (fun line => decide (['-', '-', '>'] <:+: line)) with
  | none => none
  | some i =>
    match matchTimePair (lines.getD i []) with
    | none => none
    | some (t1, t2) =>
      let text := trimJs (joinWith ['\n'] (lines.drop (i + 1)))
      if text = [] then none
      else some ⟨curCount + 1, (timeToSeconds (some t1)).toQ,
        (timeToSeconds (some t2)).toQ, text⟩

/-- `parseSRT`: normalise newlines, split into blocks, accumulate the
successfully parsed cues in order. -/
def parseSRT (content : List Char) : List Subtitle :=
  (splitBlocks (normalizeNL content)).foldl
    (fun acc block =>
      match parseBlock block acc.length with
      | some sub => acc ++ [sub]
      | none => acc) []

/-! ## Digit strings: character classes, `String(n)`, values -/

lemma digit_toNat_range {c : Char} (h : isDigitCh c = true) :
    48 ≤ c.toNat ∧ c.toNat ≤ 57 := by
  simp only [isDigitCh, Bool.and_eq_true, decide_eq_true_eq] at h
  obtain ⟨h1, h2⟩ := h
  rw [Char.le_def] at h1 h2
  exact ⟨h1, h2⟩

lemma digit_ne_of_toNat {c d : Char} (h : isDigitCh c = true)
    (hd : d.toNat < 48 ∨ 57 < d.toNat) : c ≠ d := by
  intro heq
  obtain ⟨h1, h2⟩ := digit_toNat_range h
  subst heq
  omega

lemma digit_not_ws {c : Char} (h : isDigitCh c = true) : isJsWS c = false := by
  obtain ⟨h1, h2⟩ := digit_toNat_range h
  have hne : ∀ d : Char, d.toNat < 48 ∨ 57 < d.toNat → ¬ c = d := fun d hd =>
    digit_ne_of_toNat h hd
  simp only [isJsWS, Bool.or_eq_false_iff, Bool.and_eq_false_iff,
    decide_eq_false_iff_not]
  repeat' apply And.intro
  all_goals
    first
      | exact hne _ (by decide)
      | (left
         intro hc
         rw [Char.le_def] at hc
         have h3 : (8192 : ℕ) ≤ c.toNat := hc
         omega)

lemma digitVal_le_of_digit {c : Char} (h : isDigitCh c = true) :
    digitVal c ≤ 9 := by
  obtain ⟨h1, h2⟩ := digit_toNat_range h
  rw [digitVal]
  omega

lemma isDigitCh_digitChar {n : ℕ} (h : n < 10) :
    isDigitCh (digitChar n) = true := by
  interval_cases n <;> decide

lemma digitVal_digitChar {n : ℕ} (h : n < 10) : digitVal (digitChar n) = n := by
  interval_cases n <;> decide

lemma charsVal_from (cs : List Char) :
    ∀ s : ℕ, cs.foldl (fun a c => 10 * a + digitVal c) s
      = s * 10 ^ cs.length + charsVal cs := by
  induction cs with
  | nil => intro s; simp [charsVal]
  | cons c rest ih =>
    intro s
    rw [charsVal, List.foldl_cons, List.foldl_cons, ih, ih]
    simp only [List.length_cons]
    ring

lemma charsVal_cons (c : Char) (cs : List Char) :
    charsVal (c :: cs) = digitVal c * 10 ^ cs.length + charsVal cs := by
  rw [charsVal, List.foldl_cons, charsVal_from]
  norm_num

lemma charsVal_append (a b : List Char) :
    charsVal (a ++ b) = charsVal a * 10 ^ b.length + charsVal b := by
  rw [charsVal, List.foldl_append, charsVal_from]
  rfl

lemma charsVal_lt {cs : List Char} (h : ∀ c ∈ cs, isDigitCh c = true) :
    charsVal cs < 10 ^ cs.length := by
  induction cs with
  | nil => rw [charsVal]; simp
  | cons c rest ih =>
    rw [charsVal_cons]
    have h9 : digitVal c ≤ 9 :=
      digitVal_le_of_digit (h c (List.mem_cons_self c rest))
    have hr := ih (fun x hx => h x (List.mem_cons_of_mem c hx))
    have hp : (0:ℕ) < 10 ^ rest.length := Nat.pos_pow_of_pos _ (by norm_num)
    calc digitVal c * 10 ^ rest.length + charsVal rest
        < digitVal c * 10 ^ rest.length + 10 ^ rest.length := by omega
      _ = (digitVal c + 1) * 10 ^ rest.length := by ring
      _ ≤ 10 * 10 ^ rest.length := by
          exact Nat.mul_le_mul_right _ (by omega)
      _ = 10 ^ (rest.length + 1) := by ring

lemma natToCharsAux_fuel :
    ∀ (n fuel fuel' : ℕ), n < fuel → n < fuel' →
      natToCharsAux fuel n = natToCharsAux fuel' n := by
  intro n
  induction n using Nat.strong_induction_on with
  | _ n ih =>
    intro fuel fuel' hf hf'
    match fuel, fuel' with
    | f + 1, f' + 1 =>
      rw [natToCharsAux, natToCharsAux]
      by_cases h10 : n < 10
      · rw [if_pos h10, if_pos h10]
      · rw [if_neg h10, if_neg h10,
          ih (n / 10) (Nat.div_lt_self (by omega) (by norm_num)) f f'
            (by omega) (by omega)]

lemma natToChars_spec (n : ℕ) :
    natToChars n ≠ [] ∧ (∀ c ∈ natToChars n, isDigitCh c = true) ∧
    charsVal (natToChars n) = n := by
  induction n using Nat.strong_induction_on with
  | _ n ih =>
    rw [natToChars, natToCharsAux]
    by_cases h10 : n < 10
    · rw [if_pos h10]
      refine ⟨by simp, ?_, ?_⟩
      · intro c hc
        simp only [List.mem_singleton] at hc
        subst hc
        exact isDigitCh_digitChar h10
      · rw [charsVal_cons, charsVal]
        simp [digitVal_digitChar h10]
    · rw [if_neg h10]
      have hlt : n / 10 < n := Nat.div_lt_self (by omega) (by norm_num)
      have hspec := ih (n / 10) hlt
      rw [natToChars] at hspec
      rw [natToCharsAux_fuel (n / 10) n (n / 10 + 1) (by omega) (by omega)]
      obtain ⟨hne, hdig, hval⟩ := hspec
      refine ⟨by simp, ?_, ?_⟩
      · intro c hc
        rcases List.mem_append.mp hc with h | h
        · exact hdig c h
        · simp only [List.mem_singleton] at h
          subst h
          exact isDigitCh_digitChar (Nat.mod_lt _ (by norm_num))
      · rw [charsVal_append, hval, charsVal_cons, charsVal]
        simp only [List.length_singleton, List.length_nil, pow_one, pow_zero,
          mul_one]
        rw [digitVal_digitChar (Nat.mod_lt _ (by norm_num))]
        simp only [List.foldl_nil]
        omega

lemma intToChars_nonneg {z : ℤ} (h : 0 ≤ z) :
    intToChars z = natToChars z.toNat := by
  rw [intToChars, if_neg (not_lt.mpr h)]

lemma drop_three_cons {a b c : Char} (ds : List Char) (m : ℕ) :
    (a :: b :: c :: ds).drop (3 + m) = ds.drop m := by
  have : 3 + m = m + 1 + 1 + 1 := by omega
  rw [this, List.drop_succ_cons, List.drop_succ_cons, List.drop_succ_cons]

lemma jsPad_spec (n : ℕ) {k : ℕ} (hk1 : 1 ≤ k) (hk3 : k ≤ 3) :
    (jsPad (n : ℤ) k).length = k ∧
    (∀ c ∈ jsPad (n : ℤ) k, isDigitCh c = true) ∧
    charsVal (jsPad (n : ℤ) k) = n % 10 ^ k := by
  obtain ⟨hne, hdig, hval⟩ := natToChars_spec n
  have htn : ((n : ℤ)).toNat = n := Int.toNat_natCast n
  have hpad : jsPad (n : ℤ) k
      = ('0' :: '0' :: '0' :: natToChars n).drop
          (3 + (natToChars n).length - k) := by
    rw [jsPad, intToChars_nonneg (Int.natCast_nonneg n), htn]
    congr 1
    simp only [List.length_cons]
    omega
  have hlpos : 1 ≤ (natToChars n).length := by
    cases hn : natToChars n with
    | nil => exact absurd hn hne
    | cons a l => simp
  by_cases hcase : k ≤ (natToChars n).length
  · have harith : 3 + (natToChars n).length - k
        = 3 + ((natToChars n).length - k) := by omega
    rw [hpad, harith, drop_three_cons]
    have hsplit := List.take_append_drop ((natToChars n).length - k)
      (natToChars n)
    have hdlen : ((natToChars n).drop ((natToChars n).length - k)).length
        = k := by
      rw [List.length_drop]
      omega
    have hddig : ∀ c ∈ (natToChars n).drop ((natToChars n).length - k),
        isDigitCh c = true := fun c hc => hdig c (List.mem_of_mem_drop hc)
    refine ⟨hdlen, hddig, ?_⟩
    have hv2 : charsVal (natToChars n)
        = charsVal ((natToChars n).take ((natToChars n).length - k)) * 10 ^ k
          + charsVal ((natToChars n).drop ((natToChars n).length - k)) := by
      conv_lhs => rw [← hsplit]
      rw [charsVal_append, hdlen]
    have hdlt : charsVal ((natToChars n).drop ((natToChars n).length - k))
        < 10 ^ k := by
      have := charsVal_lt hddig
      rwa [hdlen] at this
    have hmod : (charsVal ((natToChars n).take ((natToChars n).length - k))
        * 10 ^ k
        + charsVal ((natToChars n).drop ((natToChars n).length - k)))
          % 10 ^ k
        = charsVal ((natToChars n).drop ((natToChars n).length - k)) := by
      rw [Nat.add_comm, Nat.add_mul_mod_self_right]
      exact Nat.mod_eq_of_lt hdlt
    conv_rhs => rw [← hval, hv2]
    exact hmod.symm
  · push_neg at hcase
    have hd0 : digitVal '0' = 0 := by decide
    have hnlt : n < 10 ^ k := by
      calc n = charsVal (natToChars n) := hval.symm
        _ < 10 ^ (natToChars n).length := charsVal_lt hdig
        _ ≤ 10 ^ k := Nat.pow_le_pow_right (by norm_num) (by omega)
    have hcases : k - (natToChars n).length = 1 ∨
        k - (natToChars n).length = 2 := by omega
    rcases hcases with hkl | hkl
    · have harith : 3 + (natToChars n).length - k = 2 := by omega
      rw [hpad, harith]
      have hdrop : ('0' :: '0' :: '0' :: natToChars n).drop 2
          = '0' :: natToChars n := by
        rw [List.drop_succ_cons, List.drop_succ_cons, List.drop_zero]
      rw [hdrop]
      refine ⟨by simp; omega, ?_, ?_⟩
      · intro c hc
        rcases List.mem_cons.mp hc with h | h
        · subst h; decide
        · exact hdig c h
      · rw [charsVal_cons, hd0, hval, Nat.mod_eq_of_lt hnlt]
        simp
    · have harith : 3 + (natToChars n).length - k = 1 := by omega
      rw [hpad, harith]
      have hdrop : ('0' :: '0' :: '0' :: natToChars n).drop 1
          = '0' :: '0' :: natToChars n := by
        rw [List.drop_succ_cons, List.drop_zero]
      rw [hdrop]
      refine ⟨by simp; omega, ?_, ?_⟩
      · intro c hc
        rcases List.mem_cons.mp hc with h | h
        · subst h; decide
        · rcases List.mem_cons.mp h with h2 | h2
          · subst h2; decide
          · exact hdig c h2
      · rw [charsVal_cons, hd0, charsVal_cons, hd0, hval,
          Nat.mod_eq_of_lt hnlt]
        simp

/-! ## The generated timestamp token and its parse -/

lemma jsMod_eq {a b : ℚ} (ha : 0 ≤ a) (hb : 0 < b) :
    jsMod a b = b * Int.fract (a / b) := by
  rw [jsMod, ratTrunc_nonneg_eq (div_nonneg ha hb.le), Int.fract]
  field_simp

lemma jsMod_nonneg {a b : ℚ} (ha : 0 ≤ a) (hb : 0 < b) : 0 ≤ jsMod a b := by
  rw [jsMod_eq ha hb]
  exact mul_nonneg hb.le (Int.fract_nonneg _)

lemma jsMod_lt {a b : ℚ} (ha : 0 ≤ a) (hb : 0 < b) : jsMod a b < b := by
  rw [jsMod_eq ha hb]
  calc b * Int.fract (a / b) < b * 1 :=
    (mul_lt_mul_left hb).mpr (Int.fract_lt_one _)
  _ = b := mul_one b

lemma round_nonneg {x : ℚ} (hx : 0 ≤ x) : 0 ≤ round x := by
  rw [round_eq]
  exact Int.floor_nonneg.mpr (by linarith)

lemma list_len2 {l : List Char} (h : l.length = 2) : ∃ a b, l = [a, b] := by
  match l, h with
  | [a, b], _ => exact ⟨a, b, rfl⟩

lemma list_len3 {l : List Char} (h : l.length = 3) :
    ∃ a b c, l = [a, b, c] := by
  match l, h with
  | [a, b, c], _ => exact ⟨a, b, c, rfl⟩

/-- The decomposed shape of a generated timestamp: two digit pairs and a
digit triple whose values are the generator's integers reduced mod the
field widths. -/
lemma secondsToTime_shape {t : ℚ} (ht : 0 ≤ t) (sep : Char) :
    ∃ h1 h2 m1 m2 s1 s2 r1 r2 r3 : Char,
      secondsToTime t sep
        = [h1, h2, ':', m1, m2, ':', s1, s2, sep, r1, r2, r3] ∧
      (∀ c ∈ [h1, h2, m1, m2, s1, s2, r1, r2, r3], isDigitCh c = true) ∧
      charsVal [h1, h2] = ⌊t / 3600⌋.toNat % 100 ∧
      charsVal [m1, m2] = ⌊jsMod t 3600 / 60⌋.toNat % 100 ∧
      charsVal [s1, s2] = ⌊jsMod t 60⌋.toNat % 100 ∧
      charsVal [r1, r2, r3] = (round (jsMod t 1 * 1000)).toNat % 1000 := by
  have hh : 0 ≤ ⌊t / 3600⌋ := Int.floor_nonneg.mpr (by positivity)
  have hm : 0 ≤ ⌊jsMod t 3600 / 60⌋ :=
    Int.floor_nonneg.mpr (div_nonneg (jsMod_nonneg ht (by norm_num)) (by norm_num))
  have hs : 0 ≤ ⌊jsMod t 60⌋ :=
    Int.floor_nonneg.mpr (jsMod_nonneg ht (by norm_num))
  have hr : 0 ≤ round (jsMod t 1 * 1000) :=
    round_nonneg (mul_nonneg (jsMod_nonneg ht (by norm_num)) (by norm_num))
  have hdec : secondsToTime t sep
      = jsPad ((⌊t / 3600⌋.toNat : ℕ) : ℤ) 2 ++ ':' ::
        (jsPad ((⌊jsMod t 3600 / 60⌋.toNat : ℕ) : ℤ) 2 ++ ':' ::
        (jsPad ((⌊jsMod t 60⌋.toNat : ℕ) : ℤ) 2 ++ sep ::
        jsPad (((round (jsMod t 1 * 1000)).toNat : ℕ) : ℤ) 3)) := by
    rw [secondsToTime, Int.toNat_of_nonneg hh, Int.toNat_of_nonneg hm,
      Int.toNat_of_nonneg hs, Int.toNat_of_nonneg hr]
  obtain ⟨hl1, hd1, hv1⟩ := @jsPad_spec ⌊t / 3600⌋.toNat
    2 (by norm_num) (by norm_num)
  obtain ⟨hl2, hd2, hv2⟩ := @jsPad_spec ⌊jsMod t 3600 / 60⌋.toNat
    2 (by norm_num) (by norm_num)
  obtain ⟨hl3, hd3, hv3⟩ := @jsPad_spec ⌊jsMod t 60⌋.toNat
    2 (by norm_num) (by norm_num)
  obtain ⟨hl4, hd4, hv4⟩ := @jsPad_spec (round (jsMod t 1 * 1000)).toNat
    3 (by norm_num) (by norm_num)
  obtain ⟨h1, h2, he1⟩ := list_len2 hl1
  obtain ⟨m1, m2, he2⟩ := list_len2 hl2
  obtain ⟨s1, s2, he3⟩ := list_len2 hl3
  obtain ⟨r1, r2, r3, he4⟩ := list_len3 hl4
  rw [he1] at hv1 hd1
  rw [he2] at hv2 hd2
  rw [he3] at hv3 hd3
  rw [he4] at hv4 hd4
  refine ⟨h1, h2, m1, m2, s1, s2, r1, r2, r3, ?_, ?_, ?_, ?_, ?_, ?_⟩
  · rw [hdec, he1, he2, he3, he4]
    rfl
  · intro c hc
    simp only [List.mem_cons, List.not_mem_nil, or_false] at hc
    rcases hc with rfl | rfl | rfl | rfl | rfl | rfl | rfl | rfl | rfl
    · exact hd1 c (by simp)
    · exact hd1 c (by simp)
    · exact hd2 c (by simp)
    · exact hd2 c (by simp)
    · exact hd3 c (by simp)
    · exact hd3 c (by simp)
    · exact hd4 c (by simp)
    · exact hd4 c (by simp)
    · exact hd4 c (by simp)
  · simpa using hv1
  · simpa using hv2
  · simpa using hv3
  · simpa using hv4

lemma tpTail_digits {m1 m2 s1 s2 : Char} (rest : List Char)
    (h1 : isDigitCh m1 = true) (h2 : isDigitCh m2 = true)
    (h3 : isDigitCh s1 = true) (h4 : isDigitCh s2 = true) :
    tpTail (':' :: m1 :: m2 :: ':' :: s1 :: s2 :: rest)
      = some ([':', m1, m2, ':', s1, s2], rest) := by
  rw [tpTail]
  rw [if_pos (by rw [h1, h2, h3, h4]; rfl)]

lemma msOpt_digits {r1 r2 r3 : Char} (rest : List Char)
    (h1 : isDigitCh r1 = true) (h2 : isDigitCh r2 = true)
    (h3 : isDigitCh r3 = true) :
    msOpt (',' :: r1 :: r2 :: r3 :: rest) = ([',', r1, r2, r3], rest) := by
  simp only [msOpt]
  rw [if_pos (Or.inl trivial)]
  rw [List.takeWhile_cons_of_pos h1, List.takeWhile_cons_of_pos h2,
    List.takeWhile_cons_of_pos h3]
  rfl

lemma matchToken_timestamp {h1 h2 m1 m2 s1 s2 r1 r2 r3 : Char}
    (rest : List Char)
    (hd : ∀ c ∈ [h1, h2, m1, m2, s1, s2, r1, r2, r3], isDigitCh c = true) :
    matchToken ([h1, h2, ':', m1, m2, ':', s1, s2, ',', r1, r2, r3] ++ rest)
      = some ([h1, h2, ':', m1, m2, ':', s1, s2, ',', r1, r2, r3], rest) := by
  have hh1 : isDigitCh h1 = true := hd h1 (by simp)
  have hh2 : isDigitCh h2 = true := hd h2 (by simp)
  have hm1 : isDigitCh m1 = true := hd m1 (by simp)
  have hm2 : isDigitCh m2 = true := hd m2 (by simp)
  have hs1 : isDigitCh s1 = true := hd s1 (by simp)
  have hs2 : isDigitCh s2 = true := hd s2 (by simp)
  have hr1 : isDigitCh r1 = true := hd r1 (by simp)
  have hr2 : isDigitCh r2 = true := hd r2 (by simp)
  have hr3 : isDigitCh r3 = true := hd r3 (by simp)
  simp only [matchToken, List.cons_append, List.nil_append, hh1, hh2,
    tpTail_digits (',' :: r1 :: r2 :: r3 :: rest) hm1 hm2 hs1 hs2,
    msOpt_digits rest hr1 hr2 hr3, if_true]

/-! ## `Number()` on a pure digit run -/

lemma takeWhile_all {p : Char → Bool} :
    ∀ {cs : List Char}, (∀ c ∈ cs, p c = true) → cs.takeWhile p = cs := by
  intro cs
  induction cs with
  | nil => intro _; rfl
  | cons c rest ih =>
    intro h
    rw [List.takeWhile_cons_of_pos (h c (List.mem_cons_self c rest)),
      ih (fun x hx => h x (List.mem_cons_of_mem c hx))]

lemma dropWhile_all {p : Char → Bool} :
    ∀ {cs : List Char}, (∀ c ∈ cs, p c = true) → cs.dropWhile p = [] := by
  intro cs
  induction cs with
  | nil => intro _; rfl
  | cons c rest ih =>
    intro h
    rw [List.dropWhile_cons_of_pos (h c (List.mem_cons_self c rest)),
      ih (fun x hx => h x (List.mem_cons_of_mem c hx))]

lemma dropWhile_head_false {p : Char → Bool} {c : Char} (cs : List Char)
    (h : p c = false) : (c :: cs).dropWhile p = c :: cs := by
  rw [List.dropWhile_cons_of_neg (by rw [h]; simp)]

lemma trimJs_no_ws {cs : List Char}
    (h : ∀ c ∈ cs, isJsWS c = false) : trimJs cs = cs := by
  rw [trimJs]
  cases cs with
  | nil => rfl
  | cons c rest =>
    rw [dropWhile_head_false rest (h c (List.mem_cons_self c rest))]
    cases hrev : (c :: rest).reverse with
    | nil => exact absurd hrev (by simp)
    | cons d ds =>
      have hd : d ∈ c :: rest := by
        rw [← List.mem_reverse, hrev]
        exact List.mem_cons_self d ds
      rw [dropWhile_head_false ds (h d hd)]
      have hrr := congrArg List.reverse hrev
      rw [List.reverse_reverse] at hrr
      exact hrr.symm

lemma trimJs_digits {cs : List Char}
    (h : ∀ c ∈ cs, isDigitCh c = true) : trimJs cs = cs :=
  trimJs_no_ws (fun c hc => digit_not_ws (h c hc))

lemma parseJsBody_digits {cs : List Char} (hne : cs ≠ [])
    (hd : ∀ c ∈ cs, isDigitCh c = true) :
    parseJsBody cs false = .fin ((charsVal cs : ℕ) : ℚ) := by
  have hinf : cs ≠ "Infinity".data := by
    intro h
    have hI : 'I' ∈ cs := by rw [h]; decide
    have := hd 'I' hI
    exact absurd this (by decide)
  have htw : cs.takeWhile isDigitCh = cs := takeWhile_all hd
  have hdw : cs.dropWhile isDigitCh = [] := dropWhile_all hd
  rw [parseJsBody, if_neg hinf]
  have hdec : parseUnsignedDec cs
      = some (((charsVal cs : ℕ) : ℚ) * (10 : ℚ) ^ (0 : ℤ)) := by
    simp only [parseUnsignedDec, htw, hdw]
    rw [if_neg hne]
    rfl
  rw [hdec]
  simp

lemma jsNumber_digits {cs : List Char} (hne : cs ≠ [])
    (hd : ∀ c ∈ cs, isDigitCh c = true) :
    jsNumber cs = .fin ((charsVal cs : ℕ) : ℚ) := by
  have htrim : trimJs cs = cs := trimJs_digits hd
  rw [jsNumber, htrim]
  split
  · exact absurd rfl hne
  · next rest =>
    exact absurd (hd '+' (List.mem_cons_self _ _)) (by decide)
  · next rest =>
    exact absurd (hd '-' (List.mem_cons_self _ _)) (by decide)
  · next c2 ds =>
    have hc2 : isDigitCh c2 = true :=
      hd c2 (List.mem_cons_of_mem _ (List.mem_cons_self _ _))
    rw [if_neg ?hx, if_neg ?ho, if_neg ?hb]
    case hx => rintro (h | h) <;> subst h <;> exact absurd hc2 (by decide)
    case ho => rintro (h | h) <;> subst h <;> exact absurd hc2 (by decide)
    case hb => rintro (h | h) <;> subst h <;> exact absurd hc2 (by decide)
    exact parseJsBody_digits hne hd
  · exact parseJsBody_digits hne hd

lemma digit_ne_char {c d : Char} (h : isDigitCh c = true)
    (hd : d.toNat < 48 ∨ 57 < d.toNat) : ¬ d = c := fun heq =>
  digit_ne_of_toNat h hd heq.symm

/-- `timeToSeconds` on a generated `HH:MM:SS,mmm` digit token. -/
lemma timeToSeconds_token {h1 h2 m1 m2 s1 s2 r1 r2 r3 : Char}
    (hd : ∀ c ∈ [h1, h2, m1, m2, s1, s2, r1, r2, r3], isDigitCh c = true) :
    timeToSeconds (some [h1, h2, ':', m1, m2, ':', s1, s2, ',', r1, r2, r3])
      = .fin (((charsVal [h1, h2] : ℕ) : ℚ) * 3600
        + ((charsVal [m1, m2] : ℕ) : ℚ) * 60
        + ((charsVal [s1, s2] : ℕ) : ℚ)
        + ((charsVal [r1, r2, r3] : ℕ) : ℚ) / 1000) := by
  have hh1 : isDigitCh h1 = true := hd h1 (by simp)
  have hh2 : isDigitCh h2 = true := hd h2 (by simp)
  have hm1 : isDigitCh m1 = true := hd m1 (by simp)
  have hm2 : isDigitCh m2 = true := hd m2 (by simp)
  have hs1 : isDigitCh s1 = true := hd s1 (by simp)
  have hs2 : isDigitCh s2 = true := hd s2 (by simp)
  have hr1 : isDigitCh r1 = true := hd r1 (by simp)
  have hr2 : isDigitCh r2 = true := hd r2 (by simp)
  have hr3 : isDigitCh r3 = true := hd r3 (by simp)
  have hdot : ('.' : Char)
      ∉ [h1, h2, ':', m1, m2, ':', s1, s2, ',', r1, r2, r3] := by
    intro hmem
    simp only [List.mem_cons, List.not_mem_nil, or_false] at hmem
    rcases hmem with h | h | h | h | h | h | h | h | h | h | h | h <;>
      first
        | exact absurd h (by decide)
        | (revert h
           first
             | exact digit_ne_char hh1 (by decide)
             | exact digit_ne_char hh2 (by decide)
             | exact digit_ne_char hm1 (by decide)
             | exact digit_ne_char hm2 (by decide)
             | exact digit_ne_char hs1 (by decide)
             | exact digit_ne_char hs2 (by decide)
             | exact digit_ne_char hr1 (by decide)
             | exact digit_ne_char hr2 (by decide)
             | exact digit_ne_char hr3 (by decide))
  have hca : (',' : Char) ∉ [h1, h2, ':', m1, m2, ':', s1, s2] := by
    intro hmem
    simp only [List.mem_cons, List.not_mem_nil, or_false] at hmem
    rcases hmem with h | h | h | h | h | h | h | h <;>
      first
        | exact absurd h (by decide)
        | (revert h
           first
             | exact digit_ne_char hh1 (by decide)
             | exact digit_ne_char hh2 (by decide)
             | exact digit_ne_char hm1 (by decide)
             | exact digit_ne_char hm2 (by decide)
             | exact digit_ne_char hs1 (by decide)
             | exact digit_ne_char hs2 (by decide))
  have hcb : (',' : Char) ∉ [r1, r2, r3] := by
    intro hmem
    simp only [List.mem_cons, List.not_mem_nil, or_false] at hmem
    rcases hmem with h | h | h <;>
      revert h <;>
      first
        | exact digit_ne_char hr1 (by decide)
        | exact digit_ne_char hr2 (by decide)
        | exact digit_ne_char hr3 (by decide)
  have hcolh : (':' : Char) ∉ [h1, h2] := by
    intro hmem
    simp only [List.mem_cons, List.not_mem_nil, or_false] at hmem
    rcases hmem with h | h <;> revert h <;>
      first
        | exact digit_ne_char hh1 (by decide)
        | exact digit_ne_char hh2 (by decide)
  have hcolm : (':' : Char) ∉ [m1, m2] := by
    intro hmem
    simp only [List.mem_cons, List.not_mem_nil, or_false] at hmem
    rcases hmem with h | h <;> revert h <;>
      first
        | exact digit_ne_char hm1 (by decide)
        | exact digit_ne_char hm2 (by decide)
  have hcols : (':' : Char) ∉ [s1, s2] := by
    intro hmem
    simp only [List.mem_cons, List.not_mem_nil, or_false] at hmem
    rcases hmem with h | h <;> revert h <;>
      first
        | exact digit_ne_char hs1 (by decide)
        | exact digit_ne_char hs2 (by decide)
  have hnorm : ttsNormalized [h1, h2, ':', m1, m2, ':', s1, s2, ',', r1, r2, r3]
      = [h1, h2, ':', m1, m2, ':', s1, s2, ',', r1, r2, r3] := by
    rw [ttsNormalized, replaceFirst_not_mem _ hdot]
  have hsplitc : splitChar ',' [h1, h2, ':', m1, m2, ':', s1, s2, ',', r1, r2, r3]
      = [[h1, h2, ':', m1, m2, ':', s1, s2], [r1, r2, r3]] := by
    have hx := @splitChar_append ','
      [h1, h2, ':', m1, m2, ':', s1, s2] [r1, r2, r3] hca
    rw [show [h1, h2, ':', m1, m2, ':', s1, s2] ++ ',' :: [r1, r2, r3]
        = [h1, h2, ':', m1, m2, ':', s1, s2, ',', r1, r2, r3] from rfl] at hx
    rw [hx, splitChar_not_mem hcb]
  have hcontains : List.contains
      [h1, h2, ':', m1, m2, ':', s1, s2, ',', r1, r2, r3] ',' = true := by
    have : (',' : Char) ∈ [h1, h2, ':', m1, m2, ':', s1, s2, ',', r1, r2, r3] := by
      simp
    simpa [List.contains] using List.elem_eq_true_of_mem this
  have htp : ttsTimePart [h1, h2, ':', m1, m2, ':', s1, s2, ',', r1, r2, r3]
      = [h1, h2, ':', m1, m2, ':', s1, s2] := by
    rw [ttsTimePart, hnorm, if_pos hcontains, hsplitc]
    rfl
  have hms : ttsMsPart [h1, h2, ':', m1, m2, ':', s1, s2, ',', r1, r2, r3]
      = [r1, r2, r3] := by
    rw [ttsMsPart, hnorm, if_pos hcontains, hsplitc]
    simp
  have hsplit2 : splitChar ':' [h1, h2, ':', m1, m2, ':', s1, s2]
      = [[h1, h2], [m1, m2], [s1, s2]] := by
    have hx := @splitChar_append ':' [h1, h2]
      ([m1, m2] ++ ':' :: [s1, s2]) hcolh
    have hy := @splitChar_append ':' [m1, m2] [s1, s2] hcolm
    rw [show [h1, h2] ++ ':' :: ([m1, m2] ++ ':' :: [s1, s2])
        = [h1, h2, ':', m1, m2, ':', s1, s2] from rfl] at hx
    rw [show [m1, m2] ++ ':' :: [s1, s2]
        = [m1, m2, ':', s1, s2] from rfl] at hx hy
    rw [hx, hy, splitChar_not_mem hcols]
  have hparts : ttsParts [h1, h2, ':', m1, m2, ':', s1, s2, ',', r1, r2, r3]
      = [.fin ((charsVal [h1, h2] : ℕ) : ℚ),
         .fin ((charsVal [m1, m2] : ℕ) : ℚ),
         .fin ((charsVal [s1, s2] : ℕ) : ℚ)] := by
    rw [ttsParts, htp, hsplit2, List.map_cons, List.map_cons, List.map_cons,
      List.map_nil,
      jsNumber_digits (by simp) (fun c hc => by
        simp only [List.mem_cons, List.not_mem_nil, or_false] at hc
        rcases hc with rfl | rfl
        · exact hh1
        · exact hh2),
      jsNumber_digits (by simp) (fun c hc => by
        simp only [List.mem_cons, List.not_mem_nil, or_false] at hc
        rcases hc with rfl | rfl
        · exact hm1
        · exact hm2),
      jsNumber_digits (by simp) (fun c hc => by
        simp only [List.mem_cons, List.not_mem_nil, or_false] at hc
        rcases hc with rfl | rfl
        · exact hs1
        · exact hs2)]
  have hmsnum : jsNumber [r1, r2, r3]
      = .fin ((charsVal [r1, r2, r3] : ℕ) : ℚ) :=
    jsNumber_digits (by simp) (fun c hc => by
      simp only [List.mem_cons, List.not_mem_nil, or_false] at hc
      rcases hc with rfl | rfl | rfl
      · exact hr1
      · exact hr2
      · exact hr3)
  rw [timeToSeconds, if_neg (by simp), ttsResult, hparts, hms, hmsnum]
  show ttsGuard (JSNum.fin _) = _
  rw [ttsGuard]
  norm_num
  intro hcontra
  simp [JSNum.isNaN] at hcontra

/-! ## Structure of the generated stream under the parser -/

lemma matchSep_not_nl {c : Char} (l : List Char) (hc : ¬ c = '\n') :
    matchSep (c :: l) = none := by
  rw [matchSep, if_neg (fun h => hc h.1)]

lemma matchPairAt_arrow {tok1 tok2 : List Char}
    (ht1 : matchToken (tok1 ++ (srtArrow ++ tok2))
      = some (tok1, srtArrow ++ tok2))
    (ht2 : matchToken tok2 = some (tok2, []))
    (hdrop2 : tok2.dropWhile isJsWS = tok2) :
    matchPairAt (tok1 ++ (srtArrow ++ tok2)) = some (tok1, tok2) := by
  have hdrop1 : (srtArrow ++ tok2).dropWhile isJsWS
      = '-' :: '-' :: '>' :: (' ' :: tok2) := by
    simp only [srtArrow, List.cons_append, List.nil_append]
    rw [List.dropWhile_cons_of_pos (by decide),
      List.dropWhile_cons_of_neg (by decide)]
  have hdrop2a : (' ' :: tok2).dropWhile isJsWS = tok2 := by
    rw [List.dropWhile_cons_of_pos (by decide)]
    exact hdrop2
  simp only [matchPairAt, ht1, hdrop1, hdrop2a, ht2]

lemma matchTimePair_of_matchPairAt {cs : List Char}
    {p : List Char × List Char} (hne : cs ≠ [])
    (hp : matchPairAt cs = some p) : matchTimePair cs = some p := by
  cases cs with
  | nil => exact absurd rfl hne
  | cons c m => rw [matchTimePair, hp]

lemma trimJs_ends {c : Char} {cs : List Char}
    (hc : isJsWS c = false)
    (hlast : ∀ d, (c :: cs).getLast? = some d → isJsWS d = false) :
    trimJs (c :: cs) = c :: cs := by
  rw [trimJs, dropWhile_head_false cs hc]
  cases hrev : (c :: cs).reverse with
  | nil => exact absurd (congrArg List.length hrev) (by simp)
  | cons d ds =>
    have hd : (c :: cs).getLast? = some d := by
      rw [← List.head?_reverse, hrev]
      rfl
    rw [dropWhile_head_false ds (hlast d hd)]
    have hrr := congrArg List.reverse hrev
    rw [List.reverse_reverse] at hrr
    exact hrr.symm

lemma getLast?_append_right {l l' : List Char} (h : l' ≠ []) :
    (l ++ l').getLast? = l'.getLast? := by
  rw [List.getLast?_append]
  cases hx : l'.getLast? with
  | some d => rfl
  | none =>
    cases l' with
    | nil => exact absurd rfl h
    | cons a m =>
      rw [← List.head?_reverse] at hx
      cases hr : (a :: m).reverse with
      | nil => exact absurd (congrArg List.length hr) (by simp)
      | cons b bs =>
        rw [hr] at hx
        exact absurd hx (by simp)

lemma takeWhile_append_stop {p : Char → Bool} {l₁ : List Char}
    (l₂ : List Char) (h : ∃ x ∈ l₁, p x = false) :
    (l₁ ++ l₂).takeWhile p = l₁.takeWhile p := by
  rw [List.takeWhile_append, if_neg (Nat.ne_of_lt (takeWhile_length_lt h))]

lemma split_at_nl {J : List Char} :
    ∀ {l pre suf : List Char}, '\n' ∉ l →
      l ++ '\n' :: J = pre ++ '\n' :: suf →
      suf = J ∨ ∃ pre2, J = pre2 ++ '\n' :: suf := by
  intro l
  induction l with
  | nil =>
    intro pre suf _ heq
    cases pre with
    | nil =>
      simp only [List.nil_append, List.cons.injEq, true_and] at heq
      exact Or.inl heq.symm
    | cons q pre2 =>
      simp only [List.nil_append, List.cons_append, List.cons.injEq] at heq
      exact Or.inr ⟨pre2, heq.2⟩
  | cons a l2 ih =>
    intro pre suf hnm heq
    cases pre with
    | nil =>
      simp only [List.cons_append, List.nil_append, List.cons.injEq] at heq
      rw [heq.1] at hnm
      exact absurd (List.mem_cons_self _ _) hnm
    | cons q pre2 =>
      simp only [List.cons_append, List.cons.injEq] at heq
      exact ih (fun hm => hnm (List.mem_cons_of_mem a hm)) heq.2

lemma joinWith_head_append (sep l : List Char) (more : List (List Char)) :
    ∃ t, joinWith sep (l :: more) = l ++ t := by
  cases more with
  | nil => exact ⟨[], (List.append_nil l).symm⟩
  | cons q qs =>
    refine ⟨sep ++ joinWith sep (q :: qs), ?_⟩
    rw [joinWith_cons_cons, List.append_assoc]

lemma splitChar_parts {sep : Char} :
    ∀ {cs : List Char} {l}, l ∈ splitChar sep cs → sep ∉ l := by
  intro cs
  induction cs with
  | nil =>
    intro l hl
    simp only [splitChar, List.mem_singleton] at hl
    subst hl
    simp
  | cons c rest ih =>
    intro l hl
    rw [splitChar] at hl
    by_cases h : c = sep
    · rw [if_pos h] at hl
      rcases List.mem_cons.mp hl with rfl | hl2
      · simp
      · exact ih hl2
    · rw [if_neg h] at hl
      cases hs : splitChar sep rest with
      | nil => exact absurd hs (splitChar_ne_nil sep rest)
      | cons q qs =>
        rw [hs] at hl
        rcases List.mem_cons.mp hl with rfl | hl2
        · intro hm
          rcases List.mem_cons.mp hm with hm2 | hm2
          · exact h hm2.symm
          · exact ih (by rw [hs]; exact List.mem_cons_self q qs) hm2
        · exact ih (by rw [hs]; exact List.mem_cons_of_mem q hl2)

lemma joinWith_sep_split :
    ∀ {lns : List (List Char)},
      (∀ l ∈ lns, '\n' ∉ l ∧ ∃ x ∈ l, isJsWS x = false) →
      ∀ {pre suf : List Char},
        joinWith ['\n'] lns = pre ++ '\n' :: suf →
        '\n' ∉ suf.takeWhile isJsWS ∧ ∃ x ∈ suf, isJsWS x = false := by
  intro lns
  induction lns with
  | nil =>
    intro _ pre suf heq
    rw [show joinWith ['\n'] ([] : List (List Char)) = [] from rfl] at heq
    exact absurd (congrArg List.length heq) (by simp; omega)
  | cons l rest ih =>
    intro h pre suf heq
    cases rest with
    | nil =>
      rw [joinWith_singleton] at heq
      have hmem : '\n' ∈ l := by
        rw [heq]
        exact List.mem_append_right pre (List.mem_cons_self _ _)
      exact absurd hmem (h l (List.mem_cons_self _ _)).1
    | cons l2 more =>
      have hj : joinWith ['\n'] (l :: l2 :: more)
          = l ++ '\n' :: joinWith ['\n'] (l2 :: more) := by
        rw [joinWith_cons_cons, List.append_assoc, List.singleton_append]
      rw [hj] at heq
      rcases split_at_nl (h l (List.mem_cons_self _ _)).1 heq with
        hsuf | ⟨pre2, hJ⟩
      · subst hsuf
        obtain ⟨t, ht⟩ := joinWith_head_append ['\n'] l2 more
        rw [ht]
        obtain ⟨hnl2, x, hx, hxw⟩ := h l2 (by simp)
        refine ⟨?_, x, List.mem_append_left t hx, hxw⟩
        rw [takeWhile_append_stop t ⟨x, hx, hxw⟩]
        intro hmem
        exact hnl2 ((List.takeWhile_prefix isJsWS).subset hmem)
      · exact ih (fun m hm => h m (List.mem_cons_of_mem _ hm)) hJ

/-- A block the scanner walks through without firing the separator: it
starts with a non-whitespace character and after every internal newline
the whitespace run stops, inside the block, before another newline. -/
def cleanBlock (bl : List Char) : Prop :=
  (∃ d ds, bl = d :: ds ∧ isJsWS d = false) ∧
  ∀ pre suf, bl = pre ++ '\n' :: suf →
    '\n' ∉ suf.takeWhile isJsWS ∧ ∃ x ∈ suf, isJsWS x = false

lemma matchSep_double {d : Char} {ds : List Char} (hd : isJsWS d = false) :
    matchSep ('\n' :: '\n' :: d :: ds) = some (d :: ds) := by
  have htake : ('\n' :: d :: ds).takeWhile isJsWS = ['\n'] := by
    rw [List.takeWhile_cons_of_pos (by decide),
      List.takeWhile_cons_of_neg (by simp [hd])]
  have hdrop : ('\n' :: d :: ds).dropWhile isJsWS = d :: ds := by
    rw [List.dropWhile_cons_of_pos (by decide)]
    exact dropWhile_head_false ds hd
  rw [matchSep, if_pos ⟨rfl, by rw [htake]; simp⟩, htake, hdrop]
  rfl

lemma matchSep_none_in_block {bl : List Char}
    (hsep : ∀ pre suf, bl = pre ++ '\n' :: suf →
      '\n' ∉ suf.takeWhile isJsWS ∧ ∃ x ∈ suf, isJsWS x = false)
    (rest : List Char) :
    ∀ pre c m, bl = pre ++ c :: m → matchSep (c :: (m ++ rest)) = none := by
  intro pre c m hbl
  by_cases hc : c = '\n'
  · subst hc
    obtain ⟨hnm, x, hx, hxw⟩ := hsep pre m hbl
    rw [matchSep, if_neg]
    rintro ⟨-, hmem⟩
    rw [takeWhile_append_stop rest ⟨x, hx, hxw⟩] at hmem
    exact hnm hmem
  · exact matchSep_not_nl (m ++ rest) hc

lemma splitBlocksAux_consume :
    ∀ (bl : List Char) (fuel : ℕ) (rest acc : List Char),
      bl.length ≤ fuel →
      (∀ pre c m, bl = pre ++ c :: m → matchSep (c :: (m ++ rest)) = none) →
      splitBlocksAux fuel (bl ++ rest) acc
        = splitBlocksAux (fuel - bl.length) rest (bl.reverse ++ acc) := by
  intro bl
  induction bl with
  | nil => intro fuel rest acc _ _; simp
  | cons a m ih =>
    intro fuel rest acc hlen hsep
    cases fuel with
    | zero => simp at hlen
    | succ k =>
      have hnone := hsep [] a m rfl
      rw [List.cons_append, splitBlocksAux, hnone]
      show splitBlocksAux k (m ++ rest) (a :: acc) = _
      rw [ih k rest (a :: acc) (by simp at hlen; omega)
        (fun pre c mm hm2 => hsep (a :: pre) c mm (by rw [hm2]; rfl))]
      rw [show k + 1 - (a :: m).length = k - m.length by
        rw [List.length_cons]; omega]
      rw [show (a :: m).reverse ++ acc = m.reverse ++ (a :: acc) by simp]

lemma splitBlocksAux_blocks :
    ∀ (bls : List (List Char)) (fuel : ℕ),
      bls ≠ [] →
      (∀ bl ∈ bls, cleanBlock bl) →
      (joinWith ['\n', '\n'] bls).length ≤ fuel →
      splitBlocksAux fuel (joinWith ['\n', '\n'] bls) [] = bls := by
  intro bls
  induction bls with
  | nil => intro fuel h; exact absurd rfl h
  | cons bl rest ih =>
    intro fuel _ hclean hfuel
    cases rest with
    | nil =>
      rw [joinWith_singleton] at hfuel ⊢
      obtain ⟨-, hsep⟩ := hclean bl (by simp)
      have hc := splitBlocksAux_consume bl fuel [] [] hfuel
        (matchSep_none_in_block hsep [])
      rw [List.append_nil] at hc
      rw [hc, splitBlocksAux]
      simp
    | cons bl2 more =>
      have hj : joinWith ['\n', '\n'] (bl :: bl2 :: more)
          = bl ++ '\n' :: '\n' :: joinWith ['\n', '\n'] (bl2 :: more) := by
        rw [joinWith_cons_cons, List.append_assoc]
        rfl
      rw [hj] at hfuel ⊢
      obtain ⟨⟨d2, ds2, hbl2, hd2w⟩, -⟩ := hclean bl2 (by simp)
      obtain ⟨t, ht⟩ := joinWith_head_append ['\n', '\n'] bl2 more
      have hJhead : joinWith ['\n', '\n'] (bl2 :: more) = d2 :: (ds2 ++ t) := by
        rw [ht, hbl2]
        rfl
      obtain ⟨-, hsep⟩ := hclean bl (by simp)
      have hfl : bl.length + ((joinWith ['\n', '\n'] (bl2 :: more)).length
          + 1 + 1) ≤ fuel := by
        simpa using hfuel
      have hc := splitBlocksAux_consume bl fuel
        ('\n' :: '\n' :: joinWith ['\n', '\n'] (bl2 :: more)) []
        (by omega) (matchSep_none_in_block hsep _)
      rw [hc]
      obtain ⟨k, hk⟩ : ∃ k, fuel - bl.length = k + 1 :=
        ⟨fuel - bl.length - 1, by omega⟩
      have hms : matchSep ('\n' :: '\n' :: joinWith ['\n', '\n'] (bl2 :: more))
          = some (joinWith ['\n', '\n'] (bl2 :: more)) := by
        rw [hJhead]
        exact matchSep_double hd2w
      rw [hk, splitBlocksAux, hms]
      show (bl.reverse ++ []).reverse :: splitBlocksAux k
        (joinWith ['\n', '\n'] (bl2 :: more)) [] = bl :: bl2 :: more
      rw [List.append_nil, List.reverse_reverse]
      congr 1
      exact ih k (by simp) (fun b hb => hclean b (List.mem_cons_of_mem _ hb))
        (by omega)

lemma splitBlocks_joinWith {bls : List (List Char)} (hne : bls ≠ [])
    (hclean : ∀ bl ∈ bls, cleanBlock bl) :
    splitBlocks (joinWith ['\n', '\n'] bls) = bls :=
  splitBlocksAux_blocks bls _ hne hclean le_rfl

/-! ## The generated block through `parseBlock` -/

lemma token_no_char {h1 h2 m1 m2 s1 s2 r1 r2 r3 e : Char}
    (hd : ∀ c ∈ [h1, h2, m1, m2, s1, s2, r1, r2, r3], isDigitCh c = true)
    (he1 : e.toNat < 48 ∨ 57 < e.toNat) (he2 : ¬ e = ':') (he3 : ¬ e = ',') :
    e ∉ [h1, h2, ':', m1, m2, ':', s1, s2, ',', r1, r2, r3] := by
  intro hmem
  simp only [List.mem_cons, List.not_mem_nil, or_false] at hmem
  rcases hmem with h | h | h | h | h | h | h | h | h | h | h | h <;>
    first
      | exact he2 h
      | exact he3 h
      | exact absurd h (digit_ne_char (hd _ (by simp)) he1)

lemma getLast?_cons_of_ne {c : Char} {l : List Char} (h : l ≠ []) :
    (c :: l).getLast? = l.getLast? := by
  rw [show c :: l = [c] ++ l from rfl, getLast?_append_right h]

lemma parseBlock_srtBlock (n curCount : ℕ) (sub : Subtitle)
    (hs : 0 ≤ sub.startTime) (he : 0 ≤ sub.endTime)
    (htne : sub.text ≠ [])
    (hthead : isJsWS sub.text.headI = false)
    (htlast : ∀ d, sub.text.getLast? = some d → isJsWS d = false) :
    parseBlock (srtBlock n sub) curCount
      = some ⟨curCount + 1,
          (timeToSeconds (some (secondsToTime sub.startTime ','))).toQ,
          (timeToSeconds (some (secondsToTime sub.endTime ','))).toQ,
          sub.text⟩ := by
  obtain ⟨a1, a2, a3, a4, a5, a6, a7, a8, a9, hsh1, hdg1, -, -, -, -⟩ :=
    secondsToTime_shape hs ','
  obtain ⟨b1, b2, b3, b4, b5, b6, b7, b8, b9, hsh2, hdg2, -, -, -, -⟩ :=
    secondsToTime_shape he ','
  obtain ⟨hnne, hndig, -⟩ := natToChars_spec n
  obtain ⟨nd, nds, hnum⟩ : ∃ d ds, natToChars n = d :: ds := by
    cases hx : natToChars n with
    | nil => exact absurd hx hnne
    | cons d ds => exact ⟨d, ds, rfl⟩
  have hnd : isDigitCh nd = true := hndig nd (by rw [hnum]; simp)
  obtain ⟨tc, tcs, htext⟩ : ∃ c cs, sub.text = c :: cs := by
    cases hx : sub.text with
    | nil => exact absurd hx htne
    | cons c cs => exact ⟨c, cs, rfl⟩
  have htc : isJsWS tc = false := by
    rw [htext] at hthead
    simpa using hthead
  have hblock : srtBlock n sub = natToChars n ++ '\n' ::
      ((secondsToTime sub.startTime ',' ++ (srtArrow
        ++ secondsToTime sub.endTime ',')) ++ '\n' :: sub.text) := by
    rw [srtBlock]
    simp [List.append_assoc]
  have hlastblock : (srtBlock n sub).getLast? = sub.text.getLast? := by
    rw [hblock, getLast?_append_right (by simp),
      getLast?_cons_of_ne (by
        intro hfoo
        have := congrArg List.length hfoo
        simp at this),
      getLast?_append_right (by simp),
      getLast?_cons_of_ne htne]
  have htrim : trimJs (srtBlock n sub) = srtBlock n sub := by
    have hshape : srtBlock n sub = nd :: (nds ++ '\n' ::
        ((secondsToTime sub.startTime ',' ++ (srtArrow
          ++ secondsToTime sub.endTime ',')) ++ '\n' :: sub.text)) := by
      rw [hblock, hnum]
      rfl
    rw [hshape]
    refine trimJs_ends (digit_not_ws hnd) ?_
    intro d hd
    rw [← hshape, hlastblock] at hd
    exact htlast d hd
  have hnl_num : '\n' ∉ natToChars n := by
    intro hm
    exact absurd (hndig '\n' hm) (by decide)
  have hnl_tl : '\n' ∉ (secondsToTime sub.startTime ',' ++ (srtArrow
      ++ secondsToTime sub.endTime ',')) := by
    intro hm
    rcases List.mem_append.mp hm with hm1 | hm2
    · rw [hsh1] at hm1
      exact token_no_char hdg1 (by decide) (by decide) (by decide) hm1
    · rcases List.mem_append.mp hm2 with hma | hmb
      · exact absurd hma (by decide)
      · rw [hsh2] at hmb
        exact token_no_char hdg2 (by decide) (by decide) (by decide) hmb
  have hlines : splitChar '\n' (srtBlock n sub)
      = natToChars n :: (secondsToTime sub.startTime ',' ++ (srtArrow
        ++ secondsToTime sub.endTime ',')) :: splitChar '\n' sub.text := by
    rw [hblock, splitChar_append _ hnl_num, splitChar_append _ hnl_tl]
  have hnum_inf : ¬ (['-', '-', '>'] <:+: natToChars n) := fun hinf =>
    absurd (hndig '-' (hinf.subset (by decide))) (by decide)
  have htl_inf : ['-', '-', '>'] <:+:
      (secondsToTime sub.startTime ',' ++ (srtArrow
        ++ secondsToTime sub.endTime ',')) :=
    ⟨secondsToTime sub.startTime ',' ++ [' '],
      ' ' :: secondsToTime sub.endTime ',',
      by simp [srtArrow, List.append_assoc]⟩
  have ht1 : matchToken (secondsToTime sub.startTime ','
      ++ (srtArrow ++ secondsToTime sub.endTime ','))
      = some (secondsToTime sub.startTime ',',
          srtArrow ++ secondsToTime sub.endTime ',') := by
    rw [hsh1]
    exact matchToken_timestamp _ hdg1
  have ht2 : matchToken (secondsToTime sub.endTime ',')
      = some (secondsToTime sub.endTime ',', []) := by
    rw [hsh2]
    have hx := matchToken_timestamp [] hdg2
    rw [List.append_nil] at hx
    exact hx
  have hd2 : (secondsToTime sub.endTime ',').dropWhile isJsWS
      = secondsToTime sub.endTime ',' := by
    rw [hsh2]
    exact dropWhile_head_false _ (digit_not_ws (hdg2 b1 (by simp)))
  have hpair : matchTimePair (secondsToTime sub.startTime ',' ++ (srtArrow
      ++ secondsToTime sub.endTime ','))
      = some (secondsToTime sub.startTime ',', secondsToTime sub.endTime ',') := by
    apply matchTimePair_of_matchPairAt
    · rw [hsh1]
      simp
    · exact matchPairAt_arrow ht1 ht2 hd2
  have hjoin : joinWith ['\n'] (splitChar '\n' sub.text) = sub.text :=
    joinWith_splitChar '\n' sub.text
  have htrimtext : trimJs sub.text = sub.text := by
    rw [htext]
    refine trimJs_ends htc ?_
    intro d hd
    rw [← htext] at hd
    exact htlast d hd
  simp [parseBlock, htrim, hlines, hnum_inf, htl_inf, hpair, hjoin,
    htrimtext, htne]

lemma cleanBlock_srtBlock (n : ℕ) (sub : Subtitle)
    (hs : 0 ≤ sub.startTime) (he : 0 ≤ sub.endTime)
    (hlok : ∀ l ∈ splitChar '\n' sub.text, ∃ x ∈ l, isJsWS x = false) :
    cleanBlock (srtBlock n sub) := by
  obtain ⟨a1, a2, a3, a4, a5, a6, a7, a8, a9, hsh1, hdg1, -, -, -, -⟩ :=
    secondsToTime_shape hs ','
  obtain ⟨b1, b2, b3, b4, b5, b6, b7, b8, b9, hsh2, hdg2, -, -, -, -⟩ :=
    secondsToTime_shape he ','
  obtain ⟨hnne, hndig, -⟩ := natToChars_spec n
  obtain ⟨nd, nds, hnum⟩ : ∃ d ds, natToChars n = d :: ds := by
    cases hx : natToChars n with
    | nil => exact absurd hx hnne
    | cons d ds => exact ⟨d, ds, rfl⟩
  have hnd : isDigitCh nd = true := hndig nd (by rw [hnum]; simp)
  have hblock : srtBlock n sub = natToChars n ++ '\n' ::
      ((secondsToTime sub.startTime ',' ++ (srtArrow
        ++ secondsToTime sub.endTime ',')) ++ '\n' :: sub.text) := by
    rw [srtBlock]
    simp [List.append_assoc]
  have hnl_num : '\n' ∉ natToChars n := by
    intro hm
    exact absurd (hndig '\n' hm) (by decide)
  have hnl_tl : '\n' ∉ (secondsToTime sub.startTime ',' ++ (srtArrow
      ++ secondsToTime sub.endTime ',')) := by
    intro hm
    rcases List.mem_append.mp hm with hm1 | hm2
    · rw [hsh1] at hm1
      exact token_no_char hdg1 (by decide) (by decide) (by decide) hm1
    · rcases List.mem_append.mp hm2 with hma | hmb
      · exact absurd hma (by decide)
      · rw [hsh2] at hmb
        exact token_no_char hdg2 (by decide) (by decide) (by decide) hmb
  have hjb : joinWith ['\n'] (natToChars n
      :: (secondsToTime sub.startTime ',' ++ (srtArrow
        ++ secondsToTime sub.endTime ',')) :: splitChar '\n' sub.text)
      = srtBlock n sub := by
    cases hsp : splitChar '\n' sub.text with
    | nil => exact absurd hsp (splitChar_ne_nil _ _)
    | cons l ls =>
      have hjt : joinWith ['\n'] (l :: ls) = sub.text := by
        rw [← hsp]
        exact joinWith_splitChar '\n' sub.text
      rw [joinWith_cons_cons, joinWith_cons_cons, hjt, hblock]
      simp [List.append_assoc]
  constructor
  · refine ⟨nd, nds ++ '\n' :: ((secondsToTime sub.startTime ','
      ++ (srtArrow ++ secondsToTime sub.endTime ',')) ++ '\n' :: sub.text),
      ?_, digit_not_ws hnd⟩
    rw [hblock, hnum]
    rfl
  · intro pre suf heq
    refine joinWith_sep_split ?_ (by rw [hjb]; exact heq)
    intro l hl
    rcases List.mem_cons.mp hl with rfl | hl2
    · exact ⟨hnl_num, nd, by rw [hnum]; simp, digit_not_ws hnd⟩
    rcases List.mem_cons.mp hl2 with rfl | hl3
    · refine ⟨hnl_tl, a1, ?_, digit_not_ws (hdg1 a1 (by simp))⟩
      apply List.mem_append_left
      rw [hsh1]
      simp
    · exact ⟨splitChar_parts hl3, hlok l hl3⟩

lemma cr_not_mem_srtBlock (n : ℕ) (sub : Subtitle)
    (hs : 0 ≤ sub.startTime) (he : 0 ≤ sub.endTime)
    (hcr : '\r' ∉ sub.text) : '\r' ∉ srtBlock n sub := by
  obtain ⟨a1, a2, a3, a4, a5, a6, a7, a8, a9, hsh1, hdg1, -, -, -, -⟩ :=
    secondsToTime_shape hs ','
  obtain ⟨b1, b2, b3, b4, b5, b6, b7, b8, b9, hsh2, hdg2, -, -, -, -⟩ :=
    secondsToTime_shape he ','
  obtain ⟨-, hndig, -⟩ := natToChars_spec n
  intro hm
  rw [srtBlock] at hm
  rcases List.mem_append.mp hm with h1 | h2
  · exact absurd (hndig '\r' h1) (by decide)
  rcases List.mem_cons.mp h2 with h3 | h4
  · exact absurd h3 (by decide)
  rcases List.mem_append.mp h4 with h5 | h6
  · rcases List.mem_append.mp h5 with h7 | h8
    · rcases List.mem_append.mp h7 with h9 | h10
      · rw [hsh1] at h9
        exact token_no_char hdg1 (by decide) (by decide) (by decide) h9
      · exact absurd h10 (by decide)
    · rw [hsh2] at h8
      exact token_no_char hdg2 (by decide) (by decide) (by decide) h8
  · rcases List.mem_cons.mp h6 with h9 | h10
    · exact absurd h9 (by decide)
    · exact hcr h10

lemma mem_joinWith {x : Char} {sep : List Char} :
    ∀ {bls : List (List Char)}, x ∈ joinWith sep bls →
      x ∈ sep ∨ ∃ bl ∈ bls, x ∈ bl := by
  intro bls
  induction bls with
  | nil =>
    intro h
    rw [show joinWith sep [] = [] from rfl] at h
    exact absurd h (List.not_mem_nil x)
  | cons q ps ih =>
    intro h
    cases ps with
    | nil =>
      rw [joinWith_singleton] at h
      exact Or.inr ⟨q, by simp, h⟩
    | cons r qs =>
      rw [joinWith_cons_cons] at h
      rcases List.mem_append.mp h with h1 | h2
      · rcases List.mem_append.mp h1 with h3 | h4
        · exact Or.inr ⟨q, by simp, h3⟩
        · exact Or.inl h4
      · rcases ih h2 with h3 | ⟨bl, hbl, hx⟩
        · exact Or.inl h3
        · exact Or.inr ⟨bl, List.mem_cons_of_mem _ hbl, hx⟩

lemma srtBlocks_mem :
    ∀ {subs : List Subtitle} {n : ℕ} {bl : List Char},
      bl ∈ srtBlocks n subs → ∃ m sub, sub ∈ subs ∧ bl = srtBlock m sub := by
  intro subs
  induction subs with
  | nil =>
    intro n bl h
    rw [srtBlocks] at h
    exact absurd h (List.not_mem_nil _)
  | cons sub rest ih =>
    intro n bl h
    rw [srtBlocks] at h
    rcases List.mem_cons.mp h with rfl | h2
    · exact ⟨n, sub, by simp, rfl⟩
    · obtain ⟨m, s2, hs2, hbl⟩ := ih h2
      exact ⟨m, s2, List.mem_cons_of_mem _ hs2, hbl⟩

lemma srtBlocks_ne_nil {subs : List Subtitle} (h : subs ≠ []) (n : ℕ) :
    srtBlocks n subs ≠ [] := by
  cases subs with
  | nil => exact absurd rfl h
  | cons sub rest =>
    rw [srtBlocks]
    simp

/-! ## The round trip assembled -/

/-- The serialise-then-parse image of one time value. -/
def rtTime (t : ℚ) : ℚ := (timeToSeconds (some (secondsToTime t ','))).toQ

/-- The structural conditions under which a generated cue is parsed back
as one block: times non-negative; text non-empty, not starting or ending
in whitespace, free of carriage returns, and with no all-whitespace
line. -/
def CueParses (sub : Subtitle) : Prop :=
  0 ≤ sub.startTime ∧ 0 ≤ sub.endTime ∧
  sub.text ≠ [] ∧ isJsWS sub.text.headI = false ∧
  (∀ d, sub.text.getLast? = some d → isJsWS d = false) ∧
  '\r' ∉ sub.text ∧
  (∀ l ∈ splitChar '\n' sub.text, ∃ x ∈ l, isJsWS x = false)

/-- The conditions under which a cue also keeps its times up to
millisecond rounding: additionally both times lie below the 100-hour
field wrap and their fractional part is small enough that millisecond
rounding does not carry into the next second. -/
def CueOK (sub : Subtitle) : Prop :=
  CueParses sub ∧ sub.startTime < 360000 ∧
  Int.fract sub.startTime < 1999 / 2000 ∧
  sub.endTime < 360000 ∧ Int.fract sub.endTime < 1999 / 2000

/-- What `parseSRT` returns on the generated document: ids renumbered
from `k + 1`, texts kept, times replaced by their round-trip images. -/
def expectedCues : ℕ → List Subtitle → List Subtitle
  | _, [] => []
  | k, sub :: rest =>
    ⟨k + 1, rtTime sub.startTime, rtTime sub.endTime, sub.text⟩ ::
      expectedCues (k + 1) rest

lemma parseSRT_foldl :
    ∀ (subs : List Subtitle) (n : ℕ) (acc : List Subtitle),
      (∀ sub ∈ subs, 0 ≤ sub.startTime ∧ 0 ≤ sub.endTime ∧ sub.text ≠ [] ∧
        isJsWS sub.text.headI = false ∧
        (∀ d, sub.text.getLast? = some d → isJsWS d = false)) →
      (srtBlocks n subs).foldl
        (fun acc block =>
          match parseBlock block acc.length with
          | some sub => acc ++ [sub]
          | none => acc) acc
        = acc ++ expectedCues acc.length subs := by
  intro subs
  induction subs with
  | nil =>
    intro n acc _
    rw [srtBlocks, expectedCues]
    simp
  | cons sub rest ih =>
    intro n acc hok
    obtain ⟨hs, he, htne, hthead, htlast⟩ := hok sub (by simp)
    rw [srtBlocks, List.foldl_cons]
    have hstep : (match parseBlock (srtBlock n sub) acc.length with
        | some sub => acc ++ [sub]
        | none => acc)
        = acc ++ [⟨acc.length + 1, rtTime sub.startTime,
            rtTime sub.endTime, sub.text⟩] := by
      rw [parseBlock_srtBlock n acc.length sub hs he htne hthead htlast]
      rfl
    rw [hstep, ih (n + 1) _ (fun s hs2 => hok s (List.mem_cons_of_mem _ hs2)),
      expectedCues]
    simp [List.append_assoc]

lemma parseSRT_generateSRT {subs : List Subtitle} (hne : subs ≠ [])
    (hok : ∀ sub ∈ subs, CueParses sub) :
    parseSRT (generateSRT subs) = expectedCues 0 subs := by
  rw [parseSRT, generateSRT]
  have hcr : '\r' ∉ joinWith ['\n', '\n'] (srtBlocks 1 subs) := by
    intro hm
    rcases mem_joinWith hm with h1 | ⟨bl, hbl, hx⟩
    · exact absurd h1 (by decide)
    · obtain ⟨m, s2, hs2, rfl⟩ := srtBlocks_mem hbl
      obtain ⟨c1, c2, -, -, -, c6, -⟩ := hok s2 hs2
      exact cr_not_mem_srtBlock m s2 c1 c2 c6 hx
  rw [normalizeNL_not_mem hcr]
  rw [splitBlocks_joinWith (srtBlocks_ne_nil hne 1) (fun bl hbl => by
    obtain ⟨m, s2, hs2, rfl⟩ := srtBlocks_mem hbl
    obtain ⟨c1, c2, -, -, -, -, c7⟩ := hok s2 hs2
    exact cleanBlock_srtBlock m s2 c1 c2 c7)]
  have := parseSRT_foldl subs 1 [] (fun s hs2 => by
    obtain ⟨c1, c2, c3, c4, c5, -, -⟩ := hok s hs2
    exact ⟨c1, c2, c3, c4, c5⟩)
  simpa using this

lemma expectedCues_length :
    ∀ (k : ℕ) (subs : List Subtitle),
      (expectedCues k subs).length = subs.length := by
  intro k subs
  induction subs generalizing k with
  | nil => rfl
  | cons sub rest ih =>
    rw [expectedCues, List.length_cons, List.length_cons, ih]

lemma expectedCues_getD :
    ∀ (subs : List Subtitle) (k i : ℕ), i < subs.length →
      (expectedCues k subs).getD i ⟨0, 0, 0, []⟩
        = ⟨k + i + 1, rtTime ((subs.getD i ⟨0, 0, 0, []⟩).startTime),
            rtTime ((subs.getD i ⟨0, 0, 0, []⟩).endTime),
            (subs.getD i ⟨0, 0, 0, []⟩).text⟩ := by
  intro subs
  induction subs with
  | nil => intro k i hi; simp at hi
  | cons sub rest ih =>
    intro k i hi
    cases i with
    | zero => rw [expectedCues]; rfl
    | succ j =>
      rw [expectedCues]
      have hj : j < rest.length := by
        rw [List.length_cons] at hi
        omega
      show (expectedCues (k + 1) rest).getD j ⟨0, 0, 0, []⟩ = _
      rw [ih (k + 1) j hj]
      have : k + 1 + j + 1 = k + (j + 1) + 1 := by omega
      rw [this]
      rfl

lemma getD_mem_of_lt {l : List Subtitle} {i : ℕ} (h : i < l.length)
    (d : Subtitle) : l.getD i d ∈ l := by
  rw [List.getD_eq_getElem l d h]
  exact List.getElem_mem h

/-! ## Value of the round-tripped time -/

lemma rtTime_eq_general {t : ℚ} (ht : 0 ≤ t) :
    rtTime t = ((⌊t / 3600⌋.toNat % 100 : ℕ) : ℚ) * 3600
      + ((⌊jsMod t 3600 / 60⌋.toNat % 100 : ℕ) : ℚ) * 60
      + ((⌊jsMod t 60⌋.toNat % 100 : ℕ) : ℚ)
      + (((round (jsMod t 1 * 1000)).toNat % 1000 : ℕ) : ℚ) / 1000 := by
  obtain ⟨a1, a2, a3, a4, a5, a6, a7, a8, a9, hsh, hdg, hv1, hv2, hv3, hv4⟩ :=
    secondsToTime_shape ht ','
  rw [rtTime, hsh, timeToSeconds_token hdg, hv1, hv2, hv3, hv4]
  rfl

lemma floor_decompose {t : ℚ} (ht : 0 ≤ t) :
    3600 * ⌊t / 3600⌋ + 60 * ⌊jsMod t 3600 / 60⌋ + ⌊jsMod t 60⌋ = ⌊t⌋ := by
  have h1 : jsMod t 3600 = t - 3600 * ⌊t / 3600⌋ := by
    rw [jsMod_eq ht (by norm_num), Int.fract, mul_sub]
    have hx : (3600 : ℚ) * (t / 3600) = t := by ring
    rw [hx]
  have h2 : jsMod t 60 = t - 60 * ⌊t / 60⌋ := by
    rw [jsMod_eq ht (by norm_num), Int.fract, mul_sub]
    have hx : (60 : ℚ) * (t / 60) = t := by ring
    rw [hx]
  have h3 : ⌊jsMod t 3600 / 60⌋ = ⌊t / 60⌋ - 60 * ⌊t / 3600⌋ := by
    rw [h1]
    have hx : (t - 3600 * ⌊t / 3600⌋) / 60
        = t / 60 - ((60 * ⌊t / 3600⌋ : ℤ) : ℚ) := by
      push_cast
      ring
    rw [hx, Int.floor_sub_int]
  have h4 : ⌊jsMod t 60⌋ = ⌊t⌋ - 60 * ⌊t / 60⌋ := by
    rw [h2]
    have hx : t - 60 * ⌊t / 60⌋ = t - ((60 * ⌊t / 60⌋ : ℤ) : ℚ) := by
      push_cast
      ring
    rw [hx, Int.floor_sub_int]
  rw [h3, h4]
  ring

lemma rtTime_formula {t : ℚ} (ht : 0 ≤ t) (hlt : t < 360000)
    (hr : round (Int.fract t * 1000) < 1000) :
    rtTime t = (⌊t⌋ : ℚ) + ((round (Int.fract t * 1000) : ℤ) : ℚ) / 1000 := by
  have hh0 : 0 ≤ ⌊t / 3600⌋ := Int.floor_nonneg.mpr (by positivity)
  have hh1 : ⌊t / 3600⌋ < 100 := by
    rw [Int.floor_lt]
    push_cast
    rw [div_lt_iff (by norm_num : (0:ℚ) < 3600)]
    linarith
  have hm0 : 0 ≤ ⌊jsMod t 3600 / 60⌋ :=
    Int.floor_nonneg.mpr
      (div_nonneg (jsMod_nonneg ht (by norm_num)) (by norm_num))
  have hm1 : ⌊jsMod t 3600 / 60⌋ < 100 := by
    rw [Int.floor_lt]
    push_cast
    rw [div_lt_iff (by norm_num : (0:ℚ) < 60)]
    have := jsMod_lt ht (show (0:ℚ) < 3600 by norm_num)
    linarith
  have hs0 : 0 ≤ ⌊jsMod t 60⌋ :=
    Int.floor_nonneg.mpr (jsMod_nonneg ht (by norm_num))
  have hs1 : ⌊jsMod t 60⌋ < 100 := by
    rw [Int.floor_lt]
    push_cast
    have := jsMod_lt ht (show (0:ℚ) < 60 by norm_num)
    linarith
  have hfr : jsMod t 1 = Int.fract t := by
    rw [jsMod_eq ht (by norm_num), one_mul, div_one]
  have hr0 : 0 ≤ round (Int.fract t * 1000) :=
    round_nonneg (mul_nonneg (Int.fract_nonneg t) (by norm_num))
  rw [rtTime_eq_general ht, hfr,
    Nat.mod_eq_of_lt (show ⌊t / 3600⌋.toNat < 100 by omega),
    Nat.mod_eq_of_lt (show ⌊jsMod t 3600 / 60⌋.toNat < 100 by omega),
    Nat.mod_eq_of_lt (show ⌊jsMod t 60⌋.toNat < 100 by omega),
    Nat.mod_eq_of_lt (show (round (Int.fract t * 1000)).toNat < 1000 by omega)]
  have hdec := floor_decompose ht
  have hcast : ((3600 * ⌊t / 3600⌋ + 60 * ⌊jsMod t 3600 / 60⌋
      + ⌊jsMod t 60⌋ : ℤ) : ℚ) = ((⌊t⌋ : ℤ) : ℚ) := by
    rw [hdec]
  have e1 : ((⌊t / 3600⌋.toNat : ℕ) : ℚ) = ((⌊t / 3600⌋ : ℤ) : ℚ) := by
    exact_mod_cast Int.toNat_of_nonneg hh0
  have e2 : ((⌊jsMod t 3600 / 60⌋.toNat : ℕ) : ℚ)
      = ((⌊jsMod t 3600 / 60⌋ : ℤ) : ℚ) := by
    exact_mod_cast Int.toNat_of_nonneg hm0
  have e3 : ((⌊jsMod t 60⌋.toNat : ℕ) : ℚ) = ((⌊jsMod t 60⌋ : ℤ) : ℚ) := by
    exact_mod_cast Int.toNat_of_nonneg hs0
  have e4 : (((round (Int.fract t * 1000)).toNat : ℕ) : ℚ)
      = ((round (Int.fract t * 1000) : ℤ) : ℚ) := by
    exact_mod_cast Int.toNat_of_nonneg hr0
  rw [e1, e2, e3, e4]
  push_cast at hcast
  linarith

lemma rtTime_close {t : ℚ} (ht : 0 ≤ t) (hlt : t < 360000)
    (hfr : Int.fract t < 1999 / 2000) :
    |rtTime t - t| ≤ 1 / 2000 := by
  have hrlt : round (Int.fract t * 1000) < 1000 := by
    rw [round_eq]
    refine Int.floor_lt.mpr ?_
    push_cast
    linarith
  rw [rtTime_formula ht hlt hrlt]
  have hx : (⌊t⌋ : ℚ) + ((round (Int.fract t * 1000) : ℤ) : ℚ) / 1000 - t
      = -((Int.fract t * 1000 - ((round (Int.fract t * 1000) : ℤ) : ℚ))
          / 1000) := by
    rw [Int.fract]
    ring
  rw [hx, abs_neg, abs_div, abs_of_nonneg (show (0:ℚ) ≤ 1000 by norm_num)]
  have habs := abs_sub_round (Int.fract t * 1000)
  linarith

lemma rtTime_one_9995 : rtTime (3999 / 2000) = 1 := by
  have hf1 : ⌊(3999 / 2000 : ℚ) / 3600⌋ = 0 := by
    rw [Int.floor_eq_zero_iff, Set.mem_Ico]
    norm_num
  have hm3600 : jsMod (3999 / 2000 : ℚ) 3600 = 3999 / 2000 := by
    rw [jsMod, ratTrunc_nonneg_eq (by positivity), hf1]
    norm_num
  have hf2 : ⌊(3999 / 2000 : ℚ) / 60⌋ = 0 := by
    rw [Int.floor_eq_zero_iff, Set.mem_Ico]
    norm_num
  have hm60 : jsMod (3999 / 2000 : ℚ) 60 = 3999 / 2000 := by
    rw [jsMod, ratTrunc_nonneg_eq (by positivity), hf2]
    norm_num
  have hf3 : ⌊(3999 / 2000 : ℚ)⌋ = 1 := by
    rw [Int.floor_eq_iff]
    norm_num
  have hm1 : jsMod (3999 / 2000 : ℚ) 1 = 1999 / 2000 := by
    rw [jsMod, ratTrunc_nonneg_eq (by positivity), div_one, hf3]
    norm_num
  have hround : round ((1999 / 2000 : ℚ) * 1000) = 1000 := by
    rw [round_eq,
      show (1999 / 2000 : ℚ) * 1000 + 1 / 2 = ((1000 : ℤ) : ℚ) by norm_num,
      Int.floor_intCast]
  rw [rtTime_eq_general (by norm_num), hf1, hm3600, hm60, hf2, hf3, hm1,
    hround]
  norm_num
  decide

lemma fract_intlike {z : ℤ} : Int.fract ((z : ℤ) : ℚ) = 0 :=
  Int.fract_intCast z

lemma rtTime_int (z : ℤ) (h0 : 0 ≤ z) (hlt : z < 360000) :
    rtTime ((z : ℤ) : ℚ) = ((z : ℤ) : ℚ) := by
  have h1 : Int.fract ((z : ℤ) : ℚ) = 0 := Int.fract_intCast z
  have h2 : ⌊((z : ℤ) : ℚ)⌋ = z := Int.floor_intCast z
  have h3 : round ((0 : ℚ) * 1000) < 1000 := by
    norm_num
  rw [rtTime_formula (by exact_mod_cast h0) (by exact_mod_cast hlt)
    (by rw [h1]; exact h3), h1, h2]
  norm_num

/-- C9 fails as stated: the single cue with start time `3999/2000`
(1.9995 s), end time 3 and text `"a"` is non-empty, has non-empty text
with no blank line and non-negative times, yet the round trip returns
start time 1: `secondsToTime` rounds the milliseconds to 1000, pads it
to `"000"` and never carries into the seconds, so `"00:00:01,000"` is
written and the parsed start differs from the original by `1999/2000`,
far beyond millisecond rounding. -/
theorem c9_round_trip_counterexample :
    parseSRT (generateSRT [⟨1, 3999 / 2000, 3, ['a']⟩])
      = [⟨1, 1, 3, ['a']⟩] ∧
    ¬ |(1 : ℚ) - 3999 / 2000| ≤ 1 / 2000 := by
  constructor
  · have hparses : ∀ sub ∈ [(⟨1, 3999 / 2000, 3, ['a']⟩ : Subtitle)],
        CueParses sub := by
      intro sub hsub
      rw [List.mem_singleton] at hsub
      subst hsub
      refine ⟨by norm_num, by norm_num, by decide, by decide, ?_,
        by decide, by decide⟩
      intro d hd
      rw [show ((['a'] : List Char).getLast?) = some 'a' from rfl] at hd
      injection hd with h
      subst h
      decide
    rw [parseSRT_generateSRT (by simp) hparses, expectedCues, expectedCues]
    have h3 : rtTime (3 : ℚ) = 3 := by
      have := rtTime_int 3 (by norm_num) (by norm_num)
      norm_num at this
      exact this
    simp [rtTime_one_9995, h3]
  · rw [show (1 : ℚ) - 3999 / 2000 = -(1999 / 2000) by norm_num, abs_neg,
      abs_of_nonneg (show (0 : ℚ) ≤ 1999 / 2000 by norm_num)]
    norm_num

/-- C9 amended: for every non-empty cue list in which each cue has
non-negative start and end times below the 100-hour field wrap with
fractional part below `1999/2000` (so millisecond rounding does not
carry), and text that is non-empty, free of carriage returns, neither
starts nor ends with whitespace and has no all-whitespace line,
`parseSRT (generateSRT cues)` returns one cue per input cue in order,
with ids renumbered consecutively from 1, each text preserved exactly,
and each start and end time within `1/2000` (half a millisecond) of the
original. -/
theorem c9_round_trip_amended (subs : List Subtitle) (hne : subs ≠ [])
    (hok : ∀ sub ∈ subs, CueOK sub) :
    (parseSRT (generateSRT subs)).length = subs.length ∧
    ∀ i, i < subs.length →
      ((parseSRT (generateSRT subs)).getD i ⟨0, 0, 0, []⟩).id = i + 1 ∧
      ((parseSRT (generateSRT subs)).getD i ⟨0, 0, 0, []⟩).text
        = (subs.getD i ⟨0, 0, 0, []⟩).text ∧
      |((parseSRT (generateSRT subs)).getD i ⟨0, 0, 0, []⟩).startTime
        - (subs.getD i ⟨0, 0, 0, []⟩).startTime| ≤ 1 / 2000 ∧
      |((parseSRT (generateSRT subs)).getD i ⟨0, 0, 0, []⟩).endTime
        - (subs.getD i ⟨0, 0, 0, []⟩).endTime| ≤ 1 / 2000 := by
  rw [parseSRT_generateSRT hne (fun s hs => (hok s hs).1)]
  refine ⟨expectedCues_length 0 subs, ?_⟩
  intro i hi
  rw [expectedCues_getD subs 0 i hi]
  obtain ⟨⟨hp1, hp2, -, -, -, -, -⟩, hb1, hb2, hb3, hb4⟩ :=
    hok _ (getD_mem_of_lt hi ⟨0, 0, 0, []⟩)
  exact ⟨by simp, rfl, rtTime_close hp1 hb1 hb2, rtTime_close hp2 hb3 hb4⟩

/-- Witness for C9 amended: the single cue `1 → 2`, text `"hi"`,
satisfies every hypothesis and the parsed document has one cue. -/
theorem c9_round_trip_amended_witness :
    ([(⟨5, 1, 2, ['h', 'i']⟩ : Subtitle)] ≠ []) ∧
    (∀ sub ∈ [(⟨5, 1, 2, ['h', 'i']⟩ : Subtitle)], CueOK sub) ∧
    (parseSRT (generateSRT [(⟨5, 1, 2, ['h', 'i']⟩ : Subtitle)])).length
      = 1 := by
  have hok : ∀ sub ∈ [(⟨5, 1, 2, ['h', 'i']⟩ : Subtitle)], CueOK sub := by
    intro sub hsub
    rw [List.mem_singleton] at hsub
    subst hsub
    refine ⟨⟨by norm_num, by norm_num, by decide, by decide, ?_,
      by decide, by decide⟩, by norm_num, ?_, by norm_num, ?_⟩
    · intro d hd
      rw [show ((['h', 'i'] : List Char).getLast?) = some 'i' from rfl] at hd
      injection hd with h
      subst h
      decide
    · rw [show (1 : ℚ) = ((1 : ℤ) : ℚ) by norm_num, Int.fract_intCast]
      norm_num
    · rw [show (2 : ℚ) = ((2 : ℤ) : ℚ) by norm_num, Int.fract_intCast]
      norm_num
  refine ⟨by simp, hok, ?_⟩
  have := (c9_round_trip_amended [(⟨5, 1, 2, ['h', 'i']⟩ : Subtitle)]
    (by simp) hok).1
  simpa using this

end QuickScribe
